import Mathlib

/-!
Verification development for the `DialogueComposer` class of `src/main.py`
(an AI-driven story-writing coach: cliché detection, tone classification,
pacing analysis, per-character voice statistics and voice-adaptive rewriting).

Modelling conventions, used throughout:
* Text is modelled as `List Char`.  Python string functions (`str.lower`,
  `str.upper`, `str.split`, `re.split`, the `\w` word class, `str.isupper`)
  are modelled at the ASCII level, character by character; all pattern tables
  of the program are ASCII.
* Python `float` arithmetic is modelled by `ℚ` (the spec states its numeric
  properties "within floating tolerance").
* Python dicts keyed by strings are modelled as association lists whose
  update-in-place / append-on-new-key behaviour mirrors CPython dicts
  (insertion order preserved).
* The program's only stochastic calls (`random.sample`, `random.random`,
  `random.choice`) are modelled by explicit oracle parameters, or pinned to
  the configuration a claim states (probability threshold 0), as noted at
  each definition.
-/

namespace DC

/-- Text of the program, one Python character per entry. -/
abbrev Str := List Char

/-! ### ASCII character toolkit -/

/-- Word character of the regex class `\w`, ASCII part: letters, digits, underscore.
Used to model the `\b` boundaries of `re.sub(r'\b...\b', ...)` in `_make_more_formal`. -/
def wordc (c : Char) : Bool := c.isAlphanum || c == '_'

/-- Numeric form of `wordc`, for arithmetic reasoning. -/
def wordcN (n : ℕ) : Bool :=
  (48 ≤ n && n ≤ 57) || (65 ≤ n && n ≤ 90) || (97 ≤ n && n ≤ 122) || n == 95

/-! ### Text utilities (models of the Python string operations used in `main.py`) -/

/-- Model of Python `text.lower()` (ASCII, character-wise). -/
def lowerS (s : Str) : Str := s.map Char.toLower

/-- The pattern `p` is a prefix of `s` (both already in matching case). -/
def startsW : Str → Str → Bool
  | [], _ => true
  | _ :: _, [] => false
  | a :: ps, b :: ss => a == b && startsW ps ss

/-- Model of Python `pattern in s` / `re.search(literal, s)`: `p` occurs as a
contiguous substring of `s`. -/
def occursIn (p : Str) : Str → Bool
  | [] => p.isEmpty
  | c :: rest => startsW p (c :: rest) || occursIn p rest

/-- Sentence-terminal characters of `re.split(r'[.!?]+', text)`. -/
def isTerminal (c : Char) : Bool := c == '.' || c == '!' || c == '?'

/-- Model of Python `s.strip()` (ASCII whitespace). -/
def stripWS (s : Str) : Str :=
  ((s.dropWhile Char.isWhitespace).reverse.dropWhile Char.isWhitespace).reverse

/-- The maximal runs of non-separator characters of `s`, in order: the non-empty
pieces of `re.split` over a one-or-more separator class (empty pieces, which
`re.split` yields at the ends, are discarded by every caller's filter), and
exactly the pieces of Python `str.split()`. -/
def chunks (sep : Char → Bool) : Str → List Str
  | [] => []
  | c :: t =>
    if sep c then chunks sep t
    else (c :: t.takeWhile (fun x => !sep x)) :: chunks sep (t.dropWhile (fun x => !sep x))
termination_by s => s.length
decreasing_by
  · simp only [List.length_cons]
    omega
  · simp only [List.length_cons]
    exact Nat.lt_succ_of_le (List.dropWhile_sublist _).length_le

/-- Model of `[s.strip() for s in re.split(r'[.!?]+', text) if s.strip()]`
as used by `_analyze_pacing`, `_calculate_pacing_score`, `_update_character_patterns`
and `_check_character_consistency`: split on runs of `.` `!` `?`, strip each piece,
discard the empty ones. -/
def sentence_split (s : Str) : List Str :=
  ((chunks isTerminal s).map stripWS).filter (fun x => !x.isEmpty)

/-- Model of Python `s.split()`: split on whitespace runs, no empty words. -/
def pyWords (s : Str) : List Str :=
  chunks Char.isWhitespace s

/-- Number of words per sentence, `[len(s.split()) for s in sentences]`. -/
def sentence_word_counts (text : Str) : List ℕ :=
  (sentence_split text).map (fun s => (pyWords s).length)

/-- Model of `statistics.mean` on a list of rationals (callers guard non-emptiness;
on `[]` Lean's total division yields `0`). -/
def meanQ (l : List ℚ) : ℚ := l.sum / (l.length : ℚ)

/-- Per-line average sentence length in words: `statistics.mean(len(s.split()) for s
in sentences) if sentences else 0` (the `0` convention for a line with no sentences
is the code's own, line 588 of `main.py`). -/
def line_avg_len (text : Str) : ℚ :=
  let counts := sentence_word_counts text
  if counts.isEmpty then 0 else meanQ (counts.map (fun n => (Nat.cast n : ℚ)))

/-! ### The pattern tables (`_load_cliche_patterns`, `_load_cliche_alternatives`,
`_load_tone_keywords`, the formality table of `_make_more_formal`) -/

/-- The 19 cliché patterns of `_load_cliche_patterns` (all are literal phrases:
none contains a regex metacharacter). -/
def cliche_patterns : List Str :=
  [ "think outside the box".data,
    "loose cannon".data,
    "perfect storm".data,
    "can of worms".data,
    "what goes around comes around".data,
    "dead as a doornail".data,
    "plenty of fish in the sea".data,
    "ignorance is bliss".data,
    "like a kid in a candy store".data,
    "you can't judge a book by its cover".data,
    "take the tiger by the tail".data,
    "every rose has its thorn".data,
    "good things come to those who wait".data,
    "in the nick of time".data,
    "if only walls could talk".data,
    "the apple doesn't fall far from the tree".data,
    "the pot calling the kettle black".data,
    "the grass is always greener on the other side".data,
    "beating a dead horse".data ]

/-- The alternatives table of `_load_cliche_alternatives` (12 keys; 7 of the 19
patterns have no entry). -/
def cliche_alternatives : List (Str × List Str) :=
  [ ("think outside the box".data,
      ["find a new angle".data, "break the pattern".data, "try something unexpected".data,
       "look at it differently".data, "challenge the assumptions".data]),
    ("loose cannon".data,
      ["unpredictable force".data, "wild card".data, "walking disaster".data,
       "chaos magnet".data, "human hurricane".data]),
    ("perfect storm".data,
      ["worst-case scenario".data, "everything going wrong at once".data,
       "complete disaster".data, "catastrophic alignment".data, "nightmare convergence".data]),
    ("can of worms".data,
      ["messy situation".data, "complicated problem".data, "tangled mess".data,
       "rabbit hole".data, "minefield".data]),
    ("what goes around comes around".data,
      ["karma catches up".data, "actions have consequences".data,
       "the universe balances things out".data, "payback time".data,
       "justice finds a way".data]),
    ("dead as a doornail".data,
      ["completely lifeless".data, "stone cold".data, "gone for good".data,
       "finished".data, "beyond saving".data]),
    ("plenty of fish in the sea".data,
      ["other opportunities out there".data, "not the only option".data,
       "more chances ahead".data, "different paths to explore".data,
       "other doors will open".data]),
    ("ignorance is bliss".data,
      ["sometimes not knowing is better".data, "knowledge can be a burden".data,
       "the truth hurts".data, "some things are better left unknown".data,
       "reality can be harsh".data]),
    ("like a kid in a candy store".data,
      ["absolutely thrilled".data, "overwhelmed with excitement".data,
       "eyes wide with wonder".data, "spoiled for choice".data,
       "drunk on possibilities".data]),
    ("you can't judge a book by its cover".data,
      ["appearances can be deceiving".data, "there's more than meets the eye".data,
       "looks don't tell the whole story".data, "first impressions can be wrong".data,
       "scratch the surface".data]),
    ("in the nick of time".data,
      ["just barely made it".data, "cutting it close".data, "with seconds to spare".data,
       "at the last possible moment".data, "pulled it off somehow".data]),
    ("beating a dead horse".data,
      ["pointless argument".data, "wasted effort".data, "going in circles".data,
       "talking to a wall".data, "spitting in the wind".data]) ]

/-- Lookup in an association list, model of Python `dict.get(k, default)`. -/
def alookup (l : List (Str × List Str)) (k : Str) : List Str :=
  match l.find? (fun p => p.1 == k) with
  | none => []
  | some p => p.2

/-- The tone-keyword table of `_load_tone_keywords`, in registration order. -/
def tone_keywords : List (String × List Str) :=
  [ ("angry", ["furious".data, "rage".data, "damn".data, "hell".data, "angry".data,
               "mad".data, "pissed".data, "livid".data, "hate".data]),
    ("sad", ["tears".data, "crying".data, "hurt".data, "broken".data, "lost".data,
             "empty".data, "alone".data, "depressed".data, "sob".data]),
    ("happy", ["amazing".data, "wonderful".data, "fantastic".data, "love".data,
               "joy".data, "excited".data, "thrilled".data, "delighted".data]),
    ("fearful", ["scared".data, "terrified".data, "afraid".data, "nightmare".data,
                 "panic".data, "dangerous".data, "worried".data, "anxious".data]),
    ("sarcastic", ["oh great".data, "fantastic".data, "wonderful".data, "sure".data,
                   "right".data, "obviously".data, "brilliant".data, "perfect".data]),
    ("romantic", ["love".data, "heart".data, "beautiful".data, "forever".data,
                  "soul".data, "kiss".data, "darling".data, "honey".data,
                  "sweetheart".data]),
    ("mysterious", ["secret".data, "hidden".data, "shadow".data, "whisper".data,
                    "unknown".data, "strange".data, "curious".data, "enigma".data]),
    ("aggressive", ["fight".data, "kill".data, "destroy".data, "attack".data,
                    "war".data, "battle".data, "crush".data, "defeat".data]),
    ("defensive", ["told you".data, "already".data, "didn't do".data, "wasn't me".data,
                   "innocent".data, "prove it".data]) ]

/-! ### `_analyze_tone`, `_detect_cliches`, `_calculate_pacing_score` -/

/-- Keyword hits of one tone: `sum(1 for keyword in keywords if keyword in text_lower)`. -/
def tone_score (keywords : List Str) (text_lower : Str) : ℕ :=
  keywords.countP (fun k => occursIn k text_lower)

/-- The result of `max(tone_scores, key=tone_scores.get)` over the positive-score
entries in registration order, `"neutral"` on the empty dict: Python `max` scans in
insertion order and keeps the first element attaining the maximum. -/
def pick_first_max (l : List (String × ℕ)) : String :=
  match l with
  | [] => "neutral"
  | x :: rest => (rest.foldl (fun best y => if best.2 < y.2 then y else best) x).1

/-- Model of `_analyze_tone` (`main.py` 559-572): score every tone, keep the positive
scores in registration order (`tone_scores` is a dict built by iterating the keyword
table, so its insertion order is registration order), return the first maximal one,
`"neutral"` when no score is positive.  A pure function: determinism of the claim is
by construction. -/
def analyze_tone (text : Str) : String :=
  pick_first_max (tone_keywords.filterMap (fun p =>
    if 0 < tone_score p.2 (lowerS text) then some (p.1, tone_score p.2 (lowerS text))
    else none))

/-- One entry of the list `_detect_cliches` returns: a dict with the pattern, a
constant severity and a constant suggestion — no span, no matched substring. -/
structure ClicheReport where
  pattern : Str
  severity : String
  suggestion : String
deriving DecidableEq, Repr

/-- Model of `_detect_cliches` (`main.py` 528-541): one report per library pattern
found anywhere in the lowered text (`re.search`), regardless of how often it occurs. -/
def detect_cliches (text : Str) : List ClicheReport :=
  (cliche_patterns.filter (fun p => occursIn p (lowerS text))).map
    (fun p => ⟨p, "medium", "Consider rephrasing to be more original"⟩)

/-- Model of `_calculate_pacing_score` (`main.py` 612-626). -/
def calculate_pacing_score (text : Str) : ℚ :=
  let sentences := sentence_split text
  if sentences.isEmpty then 1/2
  else
    let lengths := sentences.map (fun s => (pyWords s).length)
    let variety : ℚ := (lengths.dedup.length : ℚ) / (lengths.length : ℚ)
    let avg_length : ℚ := meanQ (lengths.map (fun n => (Nat.cast n : ℚ)))
    let length_score : ℚ := 1 - |avg_length - 8| / 8
    variety * (6/10) + length_score * (4/10)

/-! ### Occurrence-level cliché detection and alternative generation
(`generate_dialogue_alternatives`, `main.py` 266-308) -/

/-- Model of `re.finditer(pattern, s)` for a literal (metacharacter-free) pattern:
the non-overlapping occurrences of `p` in `s`, scanned left to right, each as its
`(start, end)` span; after a match the scan resumes at the match's end.  `i` is the
absolute position of the head of `s`.  (`re.finditer` with an empty pattern would
match everywhere; no library pattern is empty, and the model returns `[]` then.) -/
def findOccs (p : Str) (s : Str) (i : ℕ) : List (ℕ × ℕ) :=
  match s with
  | [] => []
  | c :: t =>
    if h : ¬p.isEmpty ∧ startsW p (c :: t) = true then
      (i, i + p.length) :: findOccs p ((c :: t).drop p.length) (i + p.length)
    else findOccs p t (i + 1)
termination_by s.length
decreasing_by
  · simp only [List.length_drop, List.length_cons]
    have : 1 ≤ p.length := by
      cases p with
      | nil => simp at h
      | cons a b => simp
    omega
  · simp only [List.length_cons]
    omega

/-- Python slice `s[a:b]`. -/
def slice (s : Str) (a b : ℕ) : Str := (s.drop a).take (b - a)

/-- One detected cliché occurrence of `generate_dialogue_alternatives`
(`main.py` 275-281): the matched substring in the original casing
(`text[start:end]`), its source pattern, and the match's span. -/
structure ClicheOccurrence where
  phrase : Str
  pattern : Str
  start_pos : ℕ
  end_pos : ℕ
deriving DecidableEq, Repr

/-- The `detected_cliches` list built by `generate_dialogue_alternatives`
(`main.py` 271-281): for every pattern in table order, every `re.finditer`
occurrence in the lowered text, with the original-casing phrase recovered by
slicing the original text at the match's span. -/
def detect_cliche_occurrences (text : Str) : List ClicheOccurrence :=
  cliche_patterns.flatMap (fun p =>
    (findOccs p (lowerS text) 0).map (fun sp => ⟨slice text sp.1 sp.2, p, sp.1, sp.2⟩))

/-- The `DialogueAlternative` dataclass of `main.py` 40-46. -/
structure DialogueAlternative where
  original_phrase : Str
  alternatives : List Str
  character_voice_adjusted : List Str
  tone_context : String
deriving DecidableEq, Repr

/-- Model of `generate_dialogue_alternatives` (`main.py` 266-308).  The two
stochastic/stateful steps are oracle parameters: `sample` models
`random.sample(population, k)` and `adapt` models `_adapt_to_character_voice`
(whose body draws from `random`); every claim settled against this definition
holds for every oracle, so in particular for the program's random draws.
An occurrence whose pattern has no entry in the alternatives table produces no
`DialogueAlternative` (`if base_alternatives:` guard, line 287). -/
def generate_dialogue_alternatives (sample : List Str → ℕ → List Str)
    (adapt : String → List Str → Str → List Str) (speaker : String) (text : Str)
    (num_alternatives : ℕ) : List DialogueAlternative :=
  (detect_cliche_occurrences text).filterMap (fun oc =>
    let base := alookup cliche_alternatives oc.pattern
    if base.isEmpty then none
    else
      let selected := sample base (min num_alternatives base.length)
      some ⟨oc.phrase, selected, adapt speaker selected text, analyze_tone text⟩)

/-! ### Improved-version assembly (`suggest_improved_dialogue`, `main.py` 686-724) -/

/-- The capitalization-preservation step of `suggest_improved_dialogue`
(`main.py` 705-707): `replacement[0].upper() + replacement[1:] if
len(replacement) > 1 else replacement.upper()`, applied only when
`original_phrase and original_phrase[0].isupper()`. -/
def preserve_capitalization (original_phrase replacement : Str) : Str :=
  match original_phrase with
  | [] => replacement
  | oc :: _ =>
    if oc.isUpper then
      match replacement with
      | [] => []
      | [c] => [Char.toUpper c]
      | c :: rest => Char.toUpper c :: rest
    else replacement

/-- Model of Python `s.replace(pat, repl)`: replace every non-overlapping
occurrence, scanning left to right (identity when `pat` is empty; every phrase
replaced by the program is non-empty). -/
def pyReplace (s pat repl : Str) : Str :=
  match s with
  | [] => []
  | c :: t =>
    if h : ¬pat.isEmpty ∧ startsW pat (c :: t) = true then
      repl ++ pyReplace ((c :: t).drop pat.length) pat repl
    else c :: pyReplace t pat repl
termination_by s.length
decreasing_by
  · simp only [List.length_drop, List.length_cons]
    have : 1 ≤ pat.length := by
      cases pat with
      | nil => simp at h
      | cons a b => simp
    omega
  · simp only [List.length_cons]
    omega

/-- The replacement loop of `suggest_improved_dialogue` (`main.py` 698-709): for
each alternative whose adjusted list is long enough, substitute every occurrence
of the original phrase by the capitalization-preserving replacement. -/
def replace_cliches (alts : List DialogueAlternative) (original_text : Str)
    (version_num : ℕ) : Str :=
  alts.foldl (fun improved alt =>
    if version_num < alt.character_voice_adjusted.length then
      pyReplace improved alt.original_phrase
        (preserve_capitalization alt.original_phrase
          (alt.character_voice_adjusted.getD version_num []))
    else improved) original_text

/-- Model of `re.sub(r'[!]{2,}', '!', s)` (equivalently: every maximal run of `!`
becomes a single `!`; runs of length one are unchanged by both). -/
def collapse_bangs : Str → Str
  | [] => []
  | c :: t =>
    if c == '!' then '!' :: collapse_bangs (t.dropWhile (fun x => x == '!'))
    else c :: collapse_bangs t
termination_by s => s.length
decreasing_by
  · simp only [List.length_cons]
    exact Nat.lt_succ_of_le (List.dropWhile_sublist _).length_le
  · simp only [List.length_cons]
    omega

/-- Model of `re.sub(r'\s+', ' ', s)`: every whitespace run becomes one space. -/
def collapse_ws : Str → Str
  | [] => []
  | c :: t =>
    if c.isWhitespace then ' ' :: collapse_ws (t.dropWhile Char.isWhitespace)
    else c :: collapse_ws t
termination_by s => s.length
decreasing_by
  · simp only [List.length_cons]
    exact Nat.lt_succ_of_le (List.dropWhile_sublist _).length_le
  · simp only [List.length_cons]
    omega

/-- The cleanup of `suggest_improved_dialogue` (`main.py` 712-714). -/
def cleanup_improved (s : Str) : Str := stripWS (collapse_ws (collapse_bangs s))

/-- The `improved_versions` list of `suggest_improved_dialogue` (`main.py`
691-716): empty when no alternatives were generated; otherwise one cleaned-up
assembled version per `version_num` in `range(min(3, max(len(alt.character_voice_adjusted))))`. -/
def improved_versions (alts : List DialogueAlternative) (original_text : Str) : List Str :=
  if alts.isEmpty then []
  else
    (List.range (min 3 ((alts.map
        (fun a => a.character_voice_adjusted.length)).foldl max 0))).map
      (fun v => cleanup_improved (replace_cliches alts original_text v))

/-! ### The session data model (`Character`, `DialogueLine`, `SceneContext`,
the `DialogueComposer` state, `main.py` 10-59) -/

/-- The `Character` dataclass (`main.py` 10-19). -/
structure Character where
  name : String
  voice_patterns : List (String × ℚ)
  emotional_range : List String
  speech_quirks : List String
  dialogue_count : ℕ := 0
  avg_sentence_length : ℚ := 0
  vocabulary_complexity : ℚ := 0
deriving DecidableEq, Repr

/-- The `DialogueLine` dataclass (`main.py` 21-29).  The wall-clock `timestamp`
is modelled as the constant `""`: it is environment input and no claim depends
on its value. -/
structure DialogueLine where
  speaker : String
  text : Str
  context : String
  emotional_tone : String
  timestamp : String := ""
  scene_position : ℕ
deriving DecidableEq, Repr

/-- The `SceneContext` dataclass (`main.py` 31-38). -/
structure SceneContext where
  setting : String
  mood : String
  tension_level : ℤ
  characters_present : List String
  plot_points : List String
deriving DecidableEq, Repr

/-- The mutable state of a `DialogueComposer` session: the `characters` dict
(association list with CPython dict semantics: insertion order kept, assignment
replaces in place), the append-only dialogue history, and the optional scene
context.  The pattern tables built in `__init__` are immutable; they are the
global constants above. -/
structure DCState where
  characters : List (String × Character)
  dialogue_history : List DialogueLine
  scene_context : Option SceneContext
deriving DecidableEq, Repr

/-- The state `DialogueComposer.__init__` produces. -/
def initState : DCState := ⟨[], [], none⟩

/-- Python dict lookup (`d[k]` guarded by `k in d`). -/
def dlookup (l : List (String × Character)) (k : String) : Option Character :=
  match l.find? (fun pr => pr.1 == k) with
  | none => none
  | some pr => some pr.2

/-- Python dict assignment `d[k] = v`: replace in place when the key exists,
append otherwise. -/
def dinsert (l : List (String × Character)) (k : String) (v : Character) :
    List (String × Character) :=
  if (l.find? (fun pr => pr.1 == k)).isSome then
    l.map (fun pr => if pr.1 == k then (k, v) else pr)
  else l ++ [(k, v)]

/-- The default voice-parameter dict of `add_character` (`main.py` 240-246). -/
def default_voice_patterns : List (String × ℚ) :=
  [("formality", 1/2), ("verbosity", 1/2), ("emotion_intensity", 1/2),
   ("interruption_tendency", 3/10), ("question_frequency", 1/5)]

/-- Model of `add_character` (`main.py` 238-253): create (or reset) the named
character with `dialogue_count = 0` and `avg_sentence_length = 0`.
`voice_description or {...}` uses the default also for an explicitly passed
empty dict (falsy in Python). -/
def add_character (st : DCState) (name : String)
    (voice_description : Option (List (String × ℚ))) : DCState :=
  let voice_patterns :=
    (match voice_description with
      | none => default_voice_patterns
      | some [] => default_voice_patterns
      | some l => l)
  let ch : Character :=
    { name := name, voice_patterns := voice_patterns,
      emotional_range := [], speech_quirks := [] }
  { st with characters := dinsert st.characters name ch }

/-- Model of `set_scene_context` (`main.py` 255-264): full replacement, never a
merge. -/
def set_scene_context (st : DCState) (setting mood : String) (tension : ℤ)
    (chars : List String) (plot_points : Option (List String)) : DCState :=
  { st with scene_context := some ⟨setting, mood, tension, chars, plot_points.getD []⟩ }

/-- Model of `_update_character_patterns` (`main.py` 628-647): an unregistered
speaker is ignored; otherwise `dialogue_count` is incremented and, only when the
line has at least one sentence, the running average becomes
`(avg*(n-1) + current_avg)/n` with `n` the count after the increment; a line
with no sentences leaves `avg_sentence_length` as it was. -/
def update_character_patterns (st : DCState) (speaker : String) (text : Str) : DCState :=
  match dlookup st.characters speaker with
  | none => st
  | some c =>
    let n : ℕ := c.dialogue_count + 1
    let c1 := { c with dialogue_count := n }
    let counts := sentence_word_counts text
    let c2 :=
      if counts.isEmpty then c1
      else
        let current_avg := meanQ (counts.map (fun k => (Nat.cast k : ℚ)))
        { c1 with avg_sentence_length :=
            (c.avg_sentence_length * ((Nat.cast n : ℚ) - 1) + current_avg)
              / (Nat.cast n : ℚ) }
    { st with characters := dinsert st.characters speaker c2 }

/-- The state effect of `analyze_dialogue_line` (`main.py` 493-526): the analysis
dict itself is read-only (its parts are the standalone functions
`detect_cliches`, `analyze_tone`, `calculate_pacing_score`,
`generate_dialogue_alternatives` above); the state is changed by appending the
`DialogueLine` record and then updating the speaker's patterns. -/
def analyze_dialogue_line_state (st : DCState) (speaker : String) (text : Str)
    (context : String) : DCState :=
  let line : DialogueLine :=
    { speaker := speaker, text := text, context := context,
      emotional_tone := analyze_tone text,
      scene_position := st.dialogue_history.length }
  let st2 := { st with dialogue_history := st.dialogue_history ++ [line] }
  update_character_patterns st2 speaker text

/-- The session operations a caller can issue (the public methods of
`DialogueComposer`). -/
inductive Op where
  | addChar (name : String) (voice_description : Option (List (String × ℚ)))
  | setScene (setting mood : String) (tension : ℤ) (chars : List String)
      (plot_points : Option (List String))
  | analyze (speaker : String) (text : Str) (context : String)
  | suggest (speaker : String) (text : Str)
  | querySummary (name : String)
  | queryContext (speaker : String) (context_hint : String)
deriving DecidableEq, Repr

/-- One step of a session.  `suggest_improved_dialogue` (`main.py` 686-724),
`get_character_voice_summary` (808-827) and `generate_context_aware_suggestion`
(774-806) assign to no field of the session — they only read it (and draw
randomness) — so they are state-identities; their return values are the
standalone functions `improved_versions`, `get_character_voice_summary` and
`generate_context_aware_suggestion`. -/
def step (st : DCState) : Op → DCState
  | .addChar n vd => add_character st n vd
  | .setScene s m t c p => set_scene_context st s m t c p
  | .analyze sp text ctx => analyze_dialogue_line_state st sp text ctx
  | .suggest _ _ => st
  | .querySummary _ => st
  | .queryContext _ _ => st

/-- A session: `__init__` followed by the listed calls. -/
def run (ops : List Op) : DCState := ops.foldl step initState

/-- A sequence of `analyze_dialogue_line(speaker, text)` calls (empty context)
applied in order — the call shape of the C2 running-average claim. -/
def analyze_calls (calls : List (String × Str)) (st : DCState) : DCState :=
  calls.foldl (fun acc pr => analyze_dialogue_line_state acc pr.1 pr.2 "") st

/-- The number of history records attributed to `name`. -/
def countSpeaker (h : List DialogueLine) (name : String) : ℕ :=
  h.countP (fun line => line.speaker == name)

/-- Call sequences under which the C3 invariant is claimed to hold once amended:
no `add_character(n)` call comes after an `analyze_dialogue_line` call already
attributed to `n` (`seen` accumulates the speakers analyzed so far; adding —
or re-adding — after analyzing resets `dialogue_count` to 0 while the history
keeps the records). -/
def wfOps : List Op → List String → Bool
  | [], _ => true
  | .addChar n _ :: rest, seen => !seen.contains n && wfOps rest seen
  | .analyze sp _ _ :: rest, seen => wfOps rest (sp :: seen)
  | _ :: rest, seen => wfOps rest seen

/-! ### Read-only queries (`get_character_voice_summary`,
`generate_context_aware_suggestion`) and the export's state effect -/

/-- `collections.Counter` over a list of tones: distinct values in first-occurrence
order with multiplicities. -/
def counterList (l : List String) : List (String × ℕ) :=
  l.foldl (fun acc t =>
    if acc.any (fun pr => pr.1 == t) then
      acc.map (fun pr => if pr.1 == t then (pr.1, pr.2 + 1) else pr)
    else acc ++ [(t, 1)]) []

/-- Stable descending sort by count (`Counter.most_common` sorts by count,
descending, and Python's sort is stable, so ties keep first-occurrence order). -/
def insertByCount (x : String × ℕ) : List (String × ℕ) → List (String × ℕ)
  | [] => [x]
  | y :: ys => if y.2 ≤ x.2 then x :: y :: ys else y :: insertByCount x ys

/-- Insertion sort driving `most_common`. -/
def sortByCountDesc : List (String × ℕ) → List (String × ℕ)
  | [] => []
  | x :: xs => insertByCount x (sortByCountDesc xs)

/-- Model of `_calculate_consistency_score` (`main.py` 829-840). -/
def calculate_consistency_score (lines : List DialogueLine) : ℚ :=
  if lines.length < 2 then 1
  else
    let tones := lines.map (fun l => l.emotional_tone)
    max 0 (min 1 (1 - ((tones.dedup.length : ℚ) / (tones.length : ℚ)) * (1/2)))

/-- Python `round` (half to even) of `q * 10`, over `10`: `round(x, 1)`. -/
def pyRound (q : ℚ) : ℤ :=
  let f := ⌊q⌋
  if q - f < 1/2 then f
  else if (1 : ℚ)/2 < q - f then f + 1
  else if Even f then f else f + 1

/-- `round(x, 1)` of `main.py` 823. -/
def round1 (q : ℚ) : ℚ := ((pyRound (q * 10) : ℚ)) / 10

/-- The result dict of `get_character_voice_summary` (`main.py` 820-827). -/
structure VoiceSummary where
  name : String
  dialogue_count : ℕ
  avg_sentence_length : ℚ
  common_tones : List (String × ℕ)
  voice_patterns : List (String × ℚ)
  consistency_score : ℚ
deriving DecidableEq, Repr

/-- Model of `get_character_voice_summary` (`main.py` 808-827): an unregistered
speaker yields the explicit error dict `{"error": f"Character {speaker} not
found"}` — no exception — and the function assigns to no session field, so the
state component is returned unchanged. -/
def get_character_voice_summary (st : DCState) (speaker : String) :
    Except String VoiceSummary × DCState :=
  match dlookup st.characters speaker with
  | none => (Except.error ("Character " ++ speaker ++ " not found"), st)
  | some ch =>
    let character_lines := st.dialogue_history.filter (fun l => l.speaker == speaker)
    let tone_frequency := counterList (character_lines.map (fun l => l.emotional_tone))
    (Except.ok
      { name := ch.name, dialogue_count := ch.dialogue_count,
        avg_sentence_length := round1 ch.avg_sentence_length,
        common_tones := (sortByCountDesc tone_frequency).take 3,
        voice_patterns := ch.voice_patterns,
        consistency_score := calculate_consistency_score character_lines }, st)

/-- Voice-parameter read with default, `voice_patterns.get(key, 0.5)`. -/
def qlookup (l : List (String × ℚ)) (k : String) : ℚ :=
  match l.find? (fun pr => pr.1 == k) with
  | none => 1/2
  | some pr => pr.2

/-- Model of `_get_voice_guidance` (`main.py` 726-753). -/
def get_voice_guidance (st : DCState) (speaker : String) : List String :=
  match dlookup st.characters speaker with
  | none => ["Character not established yet - focus on defining their unique voice."]
  | some ch =>
    let formality := qlookup ch.voice_patterns "formality"
    let verbosity := qlookup ch.voice_patterns "verbosity"
    let emotion := qlookup ch.voice_patterns "emotion_intensity"
    (if formality > 7/10 then
      ["Maintain formal speech patterns - avoid contractions and slang"]
    else if formality < 3/10 then
      ["Keep it casual - use contractions and informal language"]
    else []) ++
    (if verbosity > 7/10 then
      ["Character tends to be wordy - elaborate and explain"]
    else if verbosity < 3/10 then
      ["Character is economical with words - keep it brief and direct"]
    else []) ++
    (if emotion > 7/10 then
      ["Character is emotionally expressive - use strong language and punctuation"]
    else if emotion < 3/10 then
      ["Character is emotionally restrained - keep tone measured"]
    else [])

/-- The result dict of `generate_context_aware_suggestion` (`main.py` 779-786). -/
structure ContextSuggestion where
  speaker : String
  context_factors : List String
  suggested_directions : List String
  tone_recommendations : List String
  pacing_advice : List String
  voice_guidance : List String
deriving DecidableEq, Repr

/-- Model of `generate_context_aware_suggestion` (`main.py` 774-806): with no
scene context set, the explicit error dict is returned — no exception — and the
function assigns to no session field, so the state component is returned
unchanged. -/
def generate_context_aware_suggestion (st : DCState) (speaker : String)
    (context_hint : String) : Except String ContextSuggestion × DCState :=
  match st.scene_context with
  | none => (Except.error "No scene context set. Use set_scene_context() first.", st)
  | some sc =>
    (Except.ok
      { speaker := speaker, context_factors := [],
        suggested_directions :=
          if sc.tension_level > 7 then
            ["High tension scene - consider shorter, punchier dialogue with interruptions"]
          else [],
        tone_recommendations :=
          (if sc.tension_level > 7 then ["urgent, intense, or confrontational"] else []) ++
          (if sc.mood == "romantic" then ["intimate", "vulnerable", "tender"] else []),
        pacing_advice :=
          match dlookup st.characters speaker with
          | none => []
          | some ch =>
            if qlookup ch.voice_patterns "formality" > 7/10 then
              ["Character tends toward formal speech - consider longer, more structured sentences"]
            else [],
        voice_guidance := get_voice_guidance st speaker }, st)

/-- The state effect of `export_analysis_report` (`main.py` 842-879), which is
entirely that of `_analyze_overall_patterns`: on a non-empty history it computes
`total_cliches` by calling `self.analyze_dialogue_line(line.speaker, line.text)`
for `line in self.dialogue_history` — each such call appends to the very list
being iterated (in CPython that generator never exhausts: the loop diverges
while the history grows).  The model folds the analyze calls over the history
snapshot taken at entry, i.e. the state effect of the first `len(history)`
iterations, which already exhibits the mutation; on an empty history the method
returns `{}` without analyzing, leaving the state unchanged.  Every other part
of the report (`get_character_voice_summary` per character, `json.dumps`,
`Counter`, `statistics.mean`) is read-only. -/
def export_analysis_report_state (st : DCState) : DCState :=
  if st.dialogue_history.isEmpty then st
  else st.dialogue_history.foldl
    (fun acc line => analyze_dialogue_line_state acc line.speaker line.text "") st

/-! ### Pacing as the specification words it (§4.4): a second set of definitions,
following the spec's sentences, to be compared with the code's
`calculate_pacing_score` -/

/-- Sentences per the spec's words: split on runs of `.` `!` `?`, discard
empty/whitespace-only pieces (the pieces themselves are kept unstripped;
the spec says nothing about trimming them). -/
def spec_sentences (text : Str) : List Str :=
  (chunks isTerminal text).filter (fun s => !s.all Char.isWhitespace)

/-- Average sentence length in words per the spec's words. -/
def spec_avgLength (text : Str) : ℚ :=
  meanQ ((spec_sentences text).map (fun s => ((pyWords s).length : ℚ)))

/-- Rhythm-variety score per the spec's words: count of distinct sentence lengths
divided by the sentence count. -/
def spec_varietyScore (text : Str) : ℚ :=
  (((spec_sentences text).map (fun s => (pyWords s).length)).dedup.length : ℚ) /
    ((spec_sentences text).length : ℚ)

/-- Length score per the spec's words: `1 − |avgLength − 8| / 8`. -/
def spec_lengthScore (text : Str) : ℚ := 1 - |spec_avgLength text - 8| / 8

/-! ### Fuel-indexed evaluators: `chunks` and `findOccs` recurse on shrinking
(non-structural) arguments, so their concrete instances do not reduce inside the
kernel; these structurally recursive twins do, and the `_eval` lemmas below
transfer. -/

/-- Structural twin of `chunks`, driven by fuel. -/
def chunksF (sep : Char → Bool) : ℕ → Str → List Str
  | 0, _ => []
  | _ + 1, [] => []
  | fuel + 1, c :: t =>
    if sep c then chunksF sep fuel t
    else (c :: t.takeWhile (fun x => !sep x)) :: chunksF sep fuel (t.dropWhile (fun x => !sep x))

/-- Structural twin of `findOccs`, driven by fuel. -/
def findOccsF (p : Str) : ℕ → Str → ℕ → List (ℕ × ℕ)
  | 0, _, _ => []
  | _ + 1, [], _ => []
  | fuel + 1, c :: t, i =>
    if ¬p.isEmpty ∧ startsW p (c :: t) = true then
      (i, i + p.length) :: findOccsF p fuel ((c :: t).drop p.length) (i + p.length)
    else findOccsF p fuel t (i + 1)

/-! ### Whole-word case-insensitive substitution (`_make_more_formal`,
`main.py` 348-372).  Each table entry is applied as
`re.sub(r'\b' + informal + r'\b', formal, result, flags=re.IGNORECASE)`;
the random formal-prefix branch (line 366-370) is pinned off by the claim
(probability threshold `0`), so the transform is exactly the eight passes. -/

/-- Case-folding of one character, the model of `re.IGNORECASE` matching of the
ASCII table patterns. -/
def lc (c : Char) : Char := Char.toLower c

/-- Right word boundary: the rest of the string is empty or starts with a
non-word character (the trailing `\b` of the pattern). -/
def wordBreak (s : Str) : Bool :=
  match s with
  | [] => true
  | c :: _ => !wordc c

/-- Match of the remaining pattern against the head of the string,
case-insensitively, followed by a right word boundary. -/
def mAt : Str → Str → Bool
  | [], s => wordBreak s
  | _ :: _, [] => false
  | q1 :: q2, c :: cs => (lc c == lc q1) && mAt q2 cs

/-- Boundary state of the scanner after reading a string: `true` when the next
position sits at a left word boundary. -/
def wbAfter (wb : Bool) : Str → Bool
  | [] => wb
  | c :: cs => wbAfter (!wordc c) cs

/-- Last character of the nonempty pattern `c :: rest`. -/
def lastc (c : Char) : Str → Char
  | [] => c
  | d :: ds => lastc d ds

/-- One pass of `re.sub` for the nonempty literal pattern `p0 :: ps` wrapped in
`\b..\b`, replacement `r`: leftmost scan; a match needs a left boundary (`wb`,
maintained as "previous character is no word character"), a case-insensitive
hit and a right boundary; on a match the replacement is emitted and the scan
resumes after the matched region of the input — the boundary state is then
fixed by the last matched character, which case-matches the pattern's last
character — and replacement text is never rescanned. -/
def go (p0 : Char) (ps r : Str) (wb : Bool) (s : Str) : Str :=
  match s with
  | [] => []
  | c :: cs =>
    if wb && (lc c == lc p0) && mAt ps cs then
      r ++ go p0 ps r (!wordc (lastc p0 ps)) (cs.drop ps.length)
    else
      c :: go p0 ps r (!wordc c) cs
termination_by s.length
decreasing_by
  · simp only [List.length_cons, List.length_drop]
    omega
  · simp only [List.length_cons]
    omega

/-- Whole-word case-insensitive occurrence of the nonempty pattern `q0 :: qs`
anywhere in the string: some position has a left boundary, a case-insensitive
hit and a right boundary. -/
def hasOccA (q0 : Char) (qs : Str) : Bool → Str → Bool
  | _, [] => false
  | wb, c :: cs => (wb && (lc c == lc q0) && mAt qs cs) || hasOccA q0 qs (!wordc c) cs

/-- Occurrence test `re.search(r'\b' + p + r'\b', s, re.IGNORECASE)` for a
literal `p`: a pass leaves `s` unchanged exactly when this is `false`. -/
def hasOcc (p s : Str) : Bool :=
  match p with
  | [] => false
  | p0 :: ps => hasOccA p0 ps true s

/-- One full `re.sub` pass of `_make_more_formal` for an `(informal, formal)`
pair. -/
def subW (p r s : Str) : Str :=
  match p with
  | [] => s
  | p0 :: ps => go p0 ps r true s

/-- The `formal_replacements` table (`main.py` 350-359), in insertion order. -/
def formal_replacements : List (Str × Str) :=
  [("can't".data, "cannot".data), ("won't".data, "will not".data),
   ("don't".data, "do not".data), ("isn't".data, "is not".data),
   ("aren't".data, "are not".data), ("yeah".data, "yes".data),
   ("okay".data, "very well".data), ("sure".data, "certainly".data)]

/-- Model of `_make_more_formal` (`main.py` 348-372) with the random-prefix
branch disabled (the claim pins the `random.random() < 0.2` threshold to `0`):
the eight `re.sub` passes in table order. -/
def make_more_formal (s : Str) : Str :=
  formal_replacements.foldl (fun acc pr => subW pr.1 pr.2 acc) s

/-- Pointwise case-insensitive agreement of two strings up to the shorter
one. -/
def ciStem : Str → Str → Bool
  | [], _ => true
  | _ :: _, [] => true
  | a :: as2, b :: bs => (lc a == lc b) && ciStem as2 bs

/-- Position safety: a boundary-valid match of pattern `q` starting where the
remaining replacement text is `t` fails inside `t`, whatever follows `t`. -/
def safePos (q t : Str) : Bool :=
  !(ciStem q t) || (decide (q.length < t.length) && !(wordBreak (t.drop q.length)))

/-- Replacement-text safety for a query pattern: no boundary position of `r`
can start a match of `q`. -/
def bSafe (q : Str) : Bool → Str → Bool
  | _, [] => true
  | wb, c :: cs => (!wb || safePos q (c :: cs)) && bSafe q (!wordc c) cs

/-- Mid-pattern safety: at every suffix of the query pattern that follows a
non-word pattern character, a match continuation cannot enter the replacement
text `r`. -/
def midSafe (r : Str) : Bool → Str → Bool
  | _, [] => true
  | w, q1 :: q2 => (w || safePos (q1 :: q2) r) && midSafe r (wordc q1) q2

/-- First character of the string exists and is a word character. -/
def startsWordc (s : Str) : Bool :=
  match s with
  | [] => false
  | c :: _ => wordc c

/-- Conditions on an `(informal, formal)` pair under which its own pass clears
every whole-word occurrence of the pattern: nonempty word-delimited pattern,
replacement starting and ending in word characters, and the seam-safety
scanners. -/
def clearSafe (p r : Str) : Bool :=
  match p with
  | [] => false
  | p0 :: ps =>
    wordc p0 && startsWordc r && wordc (lastc p0 ps) &&
    bSafe (p0 :: ps) true r && bSafe (p0 :: ps) false r &&
    !(wbAfter true r) && !(wbAfter false r) &&
    midSafe r (wordc p0) ps

/-- Conditions under which a pass with replacement `r` cannot create a new
whole-word occurrence of the (different) query pattern `q`. -/
def presSafe (q r : Str) : Bool :=
  match q with
  | [] => true
  | q0 :: qs =>
    bSafe (q0 :: qs) true r && bSafe (q0 :: qs) false r &&
    !(wbAfter true r) && !(wbAfter false r) &&
    midSafe r (wordc q0) qs

/-! ## Theorems -/

/-! ### Evaluator transfer -/

theorem chunksF_eq (sep : Char → Bool) :
    ∀ (fuel : ℕ) (s : Str), s.length ≤ fuel → chunksF sep fuel s = chunks sep s := by
  intro fuel
  induction fuel with
  | zero =>
    intro s hs
    rw [List.eq_nil_of_length_eq_zero (Nat.le_zero.mp hs)]
    rw [chunksF, chunks]
  | succ n ih =>
    intro s hs
    cases s with
    | nil => rw [chunksF, chunks]
    | cons c t =>
      rw [List.length_cons] at hs
      rw [chunksF, chunks]
      by_cases hc : sep c = true
      · rw [if_pos hc, if_pos hc, ih t (by omega)]
      · rw [if_neg hc, if_neg hc,
          ih _ (le_trans (List.dropWhile_sublist _).length_le (by omega))]

theorem chunks_eval (sep : Char → Bool) (s : Str) :
    chunks sep s = chunksF sep s.length s :=
  (chunksF_eq sep s.length s (le_refl _)).symm

theorem findOccsF_eq (p : Str) :
    ∀ (fuel : ℕ) (s : Str) (i : ℕ), s.length ≤ fuel → findOccsF p fuel s i = findOccs p s i := by
  intro fuel
  induction fuel with
  | zero =>
    intro s i hs
    rw [List.eq_nil_of_length_eq_zero (Nat.le_zero.mp hs)]
    rw [findOccsF, findOccs]
  | succ n ih =>
    intro s i hs
    cases s with
    | nil => rw [findOccsF, findOccs]
    | cons c t =>
      rw [List.length_cons] at hs
      rw [findOccsF, findOccs]
      by_cases hc : ¬p.isEmpty ∧ startsW p (c :: t) = true
      · rw [dif_pos hc, if_pos hc]
        have hp : 1 ≤ p.length := by
          cases p with
          | nil => simp at hc
          | cons a b => simp
        rw [ih _ _ (by simp only [List.length_drop, List.length_cons]; omega)]
      · rw [dif_neg hc, if_neg hc, ih t _ (by omega)]

theorem findOccs_eval (p s : Str) (i : ℕ) : findOccs p s i = findOccsF p s.length s i :=
  (findOccsF_eq p s.length s i (le_refl _)).symm

/-! ### ASCII character lemmas -/

theorem char_ofNat_toNat {n : ℕ} (h : n < 128) : (Char.ofNat n).toNat = n := by
  unfold Char.ofNat
  have hv : n.isValidChar := Or.inl (by omega)
  rw [dif_pos hv]
  rfl

theorem char_toNat_injective {a b : Char} (h : a.toNat = b.toNat) : a = b := by
  apply Char.eq_of_val_eq
  apply UInt32.eq_of_toBitVec_eq
  exact BitVec.eq_of_toNat_eq h

theorem isLower_toNat {c : Char} : c.isLower = true ↔ 97 ≤ c.toNat ∧ c.toNat ≤ 122 := by
  simp [Char.isLower]
  exact Iff.rfl

theorem isUpper_toNat {c : Char} : c.isUpper = true ↔ 65 ≤ c.toNat ∧ c.toNat ≤ 90 := by
  simp [Char.isUpper]
  exact Iff.rfl

theorem isDigit_toNat {c : Char} : c.isDigit = true ↔ 48 ≤ c.toNat ∧ c.toNat ≤ 57 := by
  simp [Char.isDigit]
  exact Iff.rfl

theorem underscore_toNat {c : Char} : (c == '_') = true ↔ c.toNat = 95 := by
  constructor
  · intro h
    rw [show c = '_' from beq_iff_eq.mp h]
    rfl
  · intro h
    exact beq_iff_eq.mpr (char_toNat_injective h)

theorem wordc_eq_wordcN (c : Char) : wordc c = wordcN c.toNat := by
  unfold wordc wordcN
  rcases h95 : (c == '_') with _ | _
  · rcases hd : c.isDigit with _ | _
    · rcases hu : c.isUpper with _ | _
      · rcases hl : c.isLower with _ | _
        · have h1 : ¬ (97 ≤ c.toNat ∧ c.toNat ≤ 122) := fun hc => by
            simp [isLower_toNat.mpr hc] at hl
          have h2 : ¬ (65 ≤ c.toNat ∧ c.toNat ≤ 90) := fun hc => by
            simp [isUpper_toNat.mpr hc] at hu
          have h3 : ¬ (48 ≤ c.toNat ∧ c.toNat ≤ 57) := fun hc => by
            simp [isDigit_toNat.mpr hc] at hd
          have h4 : ¬ c.toNat = 95 := fun hc => by
            simp [underscore_toNat.mpr hc] at h95
          simp [Char.isAlphanum, Char.isAlpha, hl, hu, hd, h95]
          omega
        · have := isLower_toNat.mp hl
          simp [Char.isAlphanum, Char.isAlpha, hl]
          omega
      · have := isUpper_toNat.mp hu
        simp [Char.isAlphanum, Char.isAlpha, hu]
        omega
    · have := isDigit_toNat.mp hd
      simp [Char.isAlphanum, hd]
      omega
  · have := underscore_toNat.mp h95
    simp [h95]
    omega

/-- The `toNat` of `Char.toLower` (model of Python `str.lower` on ASCII). -/
theorem toLower_toNat (c : Char) :
    (Char.toLower c).toNat = if 65 ≤ c.toNat ∧ c.toNat ≤ 90 then c.toNat + 32 else c.toNat := by
  unfold Char.toLower
  split
  · next h =>
    rw [if_pos (by omega)]
    exact char_ofNat_toNat (by omega)
  · next h =>
    rw [if_neg (by omega)]

/-- Lowercasing never changes whether a character is a `\w` word character. -/
theorem wordc_toLower (c : Char) : wordc (Char.toLower c) = wordc c := by
  rw [wordc_eq_wordcN, wordc_eq_wordcN, toLower_toNat]
  split
  · next h =>
    have h1 : wordcN (c.toNat + 32) = true := by
      simp only [wordcN, Bool.or_eq_true, Bool.and_eq_true, decide_eq_true_eq, beq_iff_eq]
      omega
    have h2 : wordcN c.toNat = true := by
      simp only [wordcN, Bool.or_eq_true, Bool.and_eq_true, decide_eq_true_eq, beq_iff_eq]
      omega
    rw [h1, h2]
  · rfl

/-- Characters equal up to case have the same `\w` status. -/
theorem wordc_of_toLower_eq {a b : Char} (h : Char.toLower a = Char.toLower b) :
    wordc a = wordc b := by
  rw [← wordc_toLower a, ← wordc_toLower b, h]

/-- Python `str.upper` turns an ASCII letter into an uppercase letter. -/
theorem isUpper_toUpper {c : Char} (h : c.isAlpha = true) : (Char.toUpper c).isUpper = true := by
  unfold Char.toUpper
  rcases Bool.or_eq_true _ _ |>.mp (by simpa [Char.isAlpha] using h) with hu | hl
  · have hb := isUpper_toNat.mp hu
    rw [if_neg (by omega)]
    exact hu
  · have hb := isLower_toNat.mp hl
    rw [if_pos (by omega)]
    exact isUpper_toNat.mpr (by rw [char_ofNat_toNat (by omega)]; omega)

/-! ### Splitting lemmas: `chunks`, `stripWS`, `pyWords` -/

theorem takeWhile_append_of_all {q : Char → Bool} {a : Str} (b : Str) (h : a.all q = true) :
    (a ++ b).takeWhile q = a ++ b.takeWhile q := by
  induction a with
  | nil => simp
  | cons c t ih =>
    simp only [List.all_cons, Bool.and_eq_true] at h
    simp [List.takeWhile_cons, h.1, ih h.2]

theorem dropWhile_append_of_all {q : Char → Bool} {a : Str} (b : Str) (h : a.all q = true) :
    (a ++ b).dropWhile q = b.dropWhile q := by
  induction a with
  | nil => simp
  | cons c t ih =>
    simp only [List.all_cons, Bool.and_eq_true] at h
    simp [List.dropWhile_cons, h.1, ih h.2]

theorem takeWhile_append_of_not_all {q : Char → Bool} {a : Str} (b : Str)
    (h : ¬ a.all q = true) : (a ++ b).takeWhile q = a.takeWhile q := by
  induction a with
  | nil => simp at h
  | cons c t ih =>
    rcases hq : q c with _ | _
    · rw [List.cons_append, List.takeWhile_cons, List.takeWhile_cons, if_neg (by simp [hq]),
        if_neg (by simp [hq])]
    · have hna : ¬ t.all q = true := by
        simp only [List.all_cons, hq, Bool.true_and] at h
        exact h
      rw [List.cons_append, List.takeWhile_cons, List.takeWhile_cons, if_pos (by simp [hq]),
        if_pos (by simp [hq]), ih hna]

theorem dropWhile_append_of_not_all {q : Char → Bool} {a : Str} (b : Str)
    (h : ¬ a.all q = true) : (a ++ b).dropWhile q = a.dropWhile q ++ b := by
  induction a with
  | nil => simp at h
  | cons c t ih =>
    rcases hq : q c with _ | _
    · rw [List.cons_append, List.dropWhile_cons, List.dropWhile_cons, if_neg (by simp [hq]),
        if_neg (by simp [hq]), List.cons_append]
    · have hna : ¬ t.all q = true := by
        simp only [List.all_cons, hq, Bool.true_and] at h
        exact h
      rw [List.cons_append, List.dropWhile_cons, List.dropWhile_cons, if_pos (by simp [hq]),
        if_pos (by simp [hq]), ih hna]

theorem chunks_nil (sep : Char → Bool) : chunks sep [] = [] := by
  rw [chunks]

theorem chunks_nil_of_all_sep {sep : Char → Bool} {t : Str} (h : ∀ c ∈ t, sep c = true) :
    chunks sep t = [] := by
  induction t with
  | nil => exact chunks_nil sep
  | cons c u ih =>
    rw [chunks, if_pos (h c (by simp))]
    exact ih (fun x hx => h x (by simp [hx]))

theorem chunks_append_sep {sep : Char → Bool} {t : Str} (ht : ∀ c ∈ t, sep c = true)
    (s : Str) : chunks sep (s ++ t) = chunks sep s := by
  induction s using chunks.induct sep with
  | case1 =>
    rw [List.nil_append, chunks_nil_of_all_sep ht, chunks_nil]
  | case2 c u hc ih =>
    rw [List.cons_append, chunks, if_pos hc, ih, chunks, if_pos hc]
  | case3 c u hc ih =>
    have hqt : t.takeWhile (fun x => !sep x) = [] := by
      cases t with
      | nil => rfl
      | cons d v => simp [List.takeWhile_cons, ht d (by simp)]
    have hdt : t.dropWhile (fun x => !sep x) = t := by
      cases t with
      | nil => rfl
      | cons d v => simp [List.dropWhile_cons, ht d (by simp)]
    rw [List.cons_append, chunks, if_neg hc, chunks, if_neg hc]
    by_cases hall : u.all (fun x => !sep x) = true
    · rw [takeWhile_append_of_all t hall, dropWhile_append_of_all t hall, hqt, hdt,
        List.append_nil, chunks_nil_of_all_sep ht]
      have hdu : u.dropWhile (fun x => !sep x) = [] :=
        List.dropWhile_eq_nil_iff.mpr (List.all_eq_true.mp hall)
      rw [List.takeWhile_eq_self_iff.mpr (List.all_eq_true.mp hall), hdu, chunks_nil]
    · rw [takeWhile_append_of_not_all t hall, dropWhile_append_of_not_all t hall, ih]

theorem chunks_dropWhile_sep (sep : Char → Bool) (s : Str) :
    chunks sep (s.dropWhile sep) = chunks sep s := by
  induction s with
  | nil => rfl
  | cons c u ih =>
    rcases hc : sep c with _ | _
    · rw [List.dropWhile_cons, if_neg (by simp [hc])]
    · rw [List.dropWhile_cons, if_pos (by simp [hc]), ih, chunks, if_pos hc]

theorem stripWS_decomp (s : Str) :
    s.dropWhile Char.isWhitespace =
      stripWS s ++ ((s.dropWhile Char.isWhitespace).reverse.takeWhile Char.isWhitespace).reverse := by
  unfold stripWS
  conv_lhs => rw [← (s.dropWhile Char.isWhitespace).reverse_reverse]
  conv_lhs => rw [← List.takeWhile_append_dropWhile Char.isWhitespace
    (s.dropWhile Char.isWhitespace).reverse]
  rw [List.reverse_append]

theorem pyWords_stripWS (s : Str) : pyWords (stripWS s) = pyWords s := by
  unfold pyWords
  have h1 : chunks Char.isWhitespace s = chunks Char.isWhitespace (s.dropWhile Char.isWhitespace) :=
    (chunks_dropWhile_sep _ _).symm
  rw [h1, stripWS_decomp s, chunks_append_sep]
  intro c hc
  rw [List.mem_reverse] at hc
  exact List.mem_takeWhile_imp hc

theorem stripWS_eq_nil_iff (s : Str) : stripWS s = [] ↔ ∀ c ∈ s, c.isWhitespace = true := by
  constructor
  · intro h c hc
    have hd := stripWS_decomp s
    rw [h, List.nil_append] at hd
    have hs : s = s.takeWhile Char.isWhitespace ++ s.dropWhile Char.isWhitespace :=
      (List.takeWhile_append_dropWhile _ _).symm
    rw [hs] at hc
    rcases List.mem_append.mp hc with h1 | h1
    · exact List.mem_takeWhile_imp h1
    · rw [hd] at h1
      rw [List.mem_reverse] at h1
      exact List.mem_takeWhile_imp h1
  · intro h
    have : s.dropWhile Char.isWhitespace = [] := List.dropWhile_eq_nil_iff.mpr h
    unfold stripWS
    rw [this]
    rfl

theorem stripWS_isEmpty_eq_all (x : Str) :
    (stripWS x).isEmpty = x.all Char.isWhitespace := by
  rcases hall : x.all Char.isWhitespace with _ | _
  · rcases he : (stripWS x).isEmpty with _ | _
    · rfl
    · exfalso
      have h1 : stripWS x = [] := List.isEmpty_iff.mp he
      have h2 := List.all_eq_true.mpr ((stripWS_eq_nil_iff x).mp h1)
      rw [hall] at h2
      exact Bool.false_ne_true h2
  · have h1 : stripWS x = [] := (stripWS_eq_nil_iff x).mpr (List.all_eq_true.mp hall)
    rw [h1]
    rfl

theorem sentence_split_eq_spec (text : Str) :
    sentence_split text = (spec_sentences text).map stripWS := by
  unfold sentence_split spec_sentences
  rw [List.filter_map]
  congr 1
  apply List.filter_congr
  intro x _
  simp only [Function.comp_apply, stripWS_isEmpty_eq_all]

/-- C6, auxiliary: the word counts of the code's stripped sentences agree with the
spec's unstripped ones. -/
theorem sentence_counts_eq_spec (text : Str) :
    (sentence_split text).map (fun s => (pyWords s).length) =
      (spec_sentences text).map (fun s => (pyWords s).length) := by
  rw [sentence_split_eq_spec, List.map_map]
  exact List.map_congr_left (fun a _ => by simp [Function.comp, pyWords_stripWS])

/-- C6: the composite pacing score of `_calculate_pacing_score` equals
`0.6*varietyScore + 0.4*lengthScore` with the spec's definitions of the variety
score (distinct sentence lengths over sentence count), the length score
(`1 − |avgLength − 8| / 8`) and sentence splitting (runs of `.` `!` `?`,
whitespace-only pieces discarded); for text with no sentences it is exactly 1/2. -/
theorem C6_pacing_score (text : Str) :
    calculate_pacing_score text =
      if spec_sentences text = [] then 1/2
      else (6/10) * spec_varietyScore text + (4/10) * spec_lengthScore text := by
  have hsplit := sentence_split_eq_spec text
  by_cases hnil : spec_sentences text = []
  · have h1 : sentence_split text = [] := by
      rw [hsplit, hnil]
      rfl
    rw [if_pos hnil]
    simp only [calculate_pacing_score, h1]
    norm_num
  · rw [if_neg hnil]
    simp only [calculate_pacing_score]
    have hne : (sentence_split text).isEmpty = false := by
      rw [hsplit]
      simp [List.isEmpty_iff, hnil]
    rw [hne, if_neg (by simp)]
    rw [hsplit, List.map_map]
    have hcong : List.map ((fun s => (pyWords s).length) ∘ stripWS) (spec_sentences text)
        = List.map (fun s => (pyWords s).length) (spec_sentences text) :=
      List.map_congr_left (fun a _ => by simp [Function.comp_apply, pyWords_stripWS])
    rw [hcong]
    unfold spec_varietyScore spec_lengthScore spec_avgLength
    rw [List.length_map, List.map_map]
    have hcast : List.map ((fun n => ((n : ℕ) : ℚ)) ∘ (fun s => (pyWords s).length))
          (spec_sentences text)
        = List.map (fun s => ((pyWords s).length : ℚ)) (spec_sentences text) := rfl
    rw [hcast]
    ring

/-! ### Tone classification (C5) -/

theorem foldl_pick_first_max (l : List (String × ℕ)) :
    ∀ x : String × ℕ,
      ∃ u v, x :: l = u ++ (l.foldl (fun best y => if best.2 < y.2 then y else best) x) :: v ∧
        (∀ z ∈ u, z.2 < (l.foldl (fun best y => if best.2 < y.2 then y else best) x).2) ∧
        (∀ z ∈ x :: l, z.2 ≤ (l.foldl (fun best y => if best.2 < y.2 then y else best) x).2) := by
  induction l with
  | nil =>
    intro x
    exact ⟨[], [], rfl, by simp, by simp⟩
  | cons y t ih =>
    intro x
    rw [List.foldl_cons]
    by_cases hxy : x.2 < y.2
    · rw [if_pos hxy]
      obtain ⟨u, v, he, hu, hle⟩ := ih y
      refine ⟨x :: u, v, ?_, ?_, ?_⟩
      · rw [List.cons_append, ← he]
      · intro z hz
        rcases List.mem_cons.mp hz with h1 | h1
        · subst h1
          exact lt_of_lt_of_le hxy (hle y (by simp))
        · exact hu z h1
      · intro z hz
        rcases List.mem_cons.mp hz with h1 | h1
        · subst h1
          exact le_of_lt (lt_of_lt_of_le hxy (hle y (by simp)))
        · exact hle z h1
    · rw [if_neg hxy]
      obtain ⟨u, v, he, hu, hle⟩ := ih x
      cases u with
      | nil =>
        rw [List.nil_append] at he
        injection he with h1 h2
        refine ⟨[], y :: v, ?_, by simp, ?_⟩
        · rw [List.nil_append, ← h1, ← h2]
        · intro z hz
          rcases List.mem_cons.mp hz with hc | hc
          · subst hc
            exact hle z (by simp)
          rcases List.mem_cons.mp hc with hd | hd
          · subst hd
            exact le_trans (Nat.le_of_not_lt hxy) (hle x (by simp))
          · exact hle z (by simp [hd])
      | cons a u₂ =>
        rw [List.cons_append] at he
        injection he with h1 h2
        refine ⟨x :: y :: u₂, v, ?_, ?_, ?_⟩
        · rw [List.cons_append, List.cons_append, ← h2]
        · intro z hz
          rcases List.mem_cons.mp hz with hc | hc
          · subst hc
            have := hu a (by simp)
            rw [← h1] at this
            exact this
          rcases List.mem_cons.mp hc with hd | hd
          · subst hd
            have hx2 := hu a (by simp)
            rw [← h1] at hx2
            exact lt_of_le_of_lt (Nat.le_of_not_lt hxy) hx2
          · exact hu z (by simp [hd])
        · intro z hz
          rcases List.mem_cons.mp hz with hc | hc
          · subst hc
            exact hle z (by simp)
          rcases List.mem_cons.mp hc with hd | hd
          · subst hd
            exact le_trans (Nat.le_of_not_lt hxy) (hle x (by simp))
          · exact hle z (by simp [hd])

theorem foldl_pick_skip_zeros (tl : Str) (l : List (String × List Str)) :
    ∀ x : String × ℕ,
      (l.filterMap (fun p =>
          if 0 < tone_score p.2 tl then some (p.1, tone_score p.2 tl) else none)).foldl
        (fun best y => if best.2 < y.2 then y else best) x
      = (l.map (fun p => (p.1, tone_score p.2 tl))).foldl
        (fun best y => if best.2 < y.2 then y else best) x := by
  induction l with
  | nil => intro x; rfl
  | cons p t ih =>
    intro x
    by_cases hp : 0 < tone_score p.2 tl
    · rw [List.filterMap_cons, if_pos hp]
      rw [List.map_cons, List.foldl_cons, List.foldl_cons, ih]
    · rw [List.filterMap_cons, if_neg hp]
      rw [List.map_cons, List.foldl_cons]
      have h0 : (if x.2 < tone_score p.2 tl then (p.1, tone_score p.2 tl) else x) = x := by
        rw [if_neg (by omega)]
      rw [h0, ih]

theorem filterMap_first_pos (tl : Str) :
    ∀ (l : List (String × List Str)) (x : String × ℕ) (rest : List (String × ℕ)),
      l.filterMap (fun p =>
          if 0 < tone_score p.2 tl then some (p.1, tone_score p.2 tl) else none)
        = x :: rest →
      ∃ l0 q l1, l = l0 ++ q :: l1 ∧ (∀ p ∈ l0, tone_score p.2 tl = 0) ∧
        0 < tone_score q.2 tl ∧ x = (q.1, tone_score q.2 tl) ∧
        rest = l1.filterMap (fun p =>
          if 0 < tone_score p.2 tl then some (p.1, tone_score p.2 tl) else none) := by
  intro l
  induction l with
  | nil =>
    intro x rest h
    exact absurd h (by simp)
  | cons p t ih =>
    intro x rest h
    by_cases hp : 0 < tone_score p.2 tl
    · rw [List.filterMap_cons, if_pos hp] at h
      injection h with h1 h2
      exact ⟨[], p, t, rfl, by simp, hp, h1.symm, h2.symm⟩
    · rw [List.filterMap_cons, if_neg hp] at h
      obtain ⟨l0, q, l1, he, hz, hq, hx, hr⟩ := ih x rest h
      exact ⟨p :: l0, q, l1, by rw [List.cons_append, he], by
        intro z hz2
        rcases List.mem_cons.mp hz2 with h1 | h1
        · subst h1
          omega
        · exact hz z h1, hq, hx, hr⟩

/-- C5: for every text, `_analyze_tone` returns a tone whose keyword-hit count is
maximal; every tone registered earlier in the table has a strictly smaller count
(so on ties, the first-registered tone wins); when every count is zero the result
is `"neutral"`.  Determinism/purity holds by construction (`analyze_tone` is a
Lean function of the text alone). -/
theorem C5_tone_classification (text : Str) :
    ((∀ p ∈ tone_keywords, tone_score p.2 (lowerS text) = 0) → analyze_tone text = "neutral") ∧
    ((∃ p ∈ tone_keywords, 0 < tone_score p.2 (lowerS text)) →
      ∃ t1 p t2, tone_keywords = t1 ++ p :: t2 ∧ analyze_tone text = p.1 ∧
        0 < tone_score p.2 (lowerS text) ∧
        (∀ q ∈ tone_keywords, tone_score q.2 (lowerS text) ≤ tone_score p.2 (lowerS text)) ∧
        (∀ q ∈ t1, tone_score q.2 (lowerS text) < tone_score p.2 (lowerS text))) := by
  constructor
  · intro hall
    unfold analyze_tone
    have : tone_keywords.filterMap (fun p =>
        if 0 < tone_score p.2 (lowerS text) then some (p.1, tone_score p.2 (lowerS text))
        else none) = [] := by
      rw [List.filterMap_eq_nil_iff]
      intro a ha
      rw [if_neg (by rw [hall a ha]; omega)]
    rw [this]
    rfl
  · intro hex
    rcases hfm : tone_keywords.filterMap (fun p =>
        if 0 < tone_score p.2 (lowerS text) then some (p.1, tone_score p.2 (lowerS text))
        else none) with _ | ⟨x, rest⟩
    · exfalso
      obtain ⟨p, hp, hpos⟩ := hex
      have := List.filterMap_eq_nil_iff.mp hfm p hp
      rw [if_pos hpos] at this
      exact Option.some_ne_none _ this
    · obtain ⟨l0, q, l1, hl, hz, hq, hx, hr⟩ := filterMap_first_pos (lowerS text) _ x rest hfm
      have hval : analyze_tone text
          = ((l1.map (fun p => (p.1, tone_score p.2 (lowerS text)))).foldl
              (fun best y => if best.2 < y.2 then y else best) x).1 := by
        unfold analyze_tone
        rw [hfm]
        show ((rest).foldl (fun best y => if best.2 < y.2 then y else best) x).1 = _
        rw [hr, foldl_pick_skip_zeros]
      obtain ⟨u, v, he, hu, hle⟩ :=
        foldl_pick_first_max (l1.map (fun p => (p.1, tone_score p.2 (lowerS text)))) x
      set r := (l1.map (fun p => (p.1, tone_score p.2 (lowerS text)))).foldl
        (fun best y => if best.2 < y.2 then y else best) x with hrdef
      cases u with
      | nil =>
        rw [List.nil_append] at he
        injection he with h1 h2
        refine ⟨l0, q, l1, hl, ?_, hq, ?_, ?_⟩
        · rw [hval, ← h1, hx]
        · intro z hzm
          rw [hl] at hzm
          rcases List.mem_append.mp hzm with hm | hm
          · rw [hz z hm]
            omega
          rcases List.mem_cons.mp hm with hm1 | hm1
          · subst hm1
            exact le_refl _
          · have : (z.1, tone_score z.2 (lowerS text)) ∈ x :: l1.map
                (fun p => (p.1, tone_score p.2 (lowerS text))) := by
              simp only [List.mem_cons, List.mem_map]
              exact Or.inr ⟨z, hm1, rfl⟩
            have h3 := hle _ this
            rw [← h1, hx] at h3
            exact h3
        · intro z hzm
          rw [hz z hzm]
          exact hq
      | cons a u₂ =>
        rw [List.cons_append] at he
        injection he with h1 h2
        obtain ⟨m1, rest2, hsplit, hmap1, hrest2⟩ := List.map_eq_append_iff.mp h2
        obtain ⟨pr, m2, hsplit2, hpr, hm2⟩ := List.map_eq_cons_iff.mp hrest2
        have hxq : x.2 = tone_score q.2 (lowerS text) := by rw [hx]
        have hprq : tone_score pr.2 (lowerS text) = r.2 := by rw [← hpr]
        have hxu : x.2 < r.2 := by
          have := hu a (by simp)
          rw [← h1] at this
          exact this
        refine ⟨l0 ++ q :: m1, pr, m2, ?_, ?_, ?_, ?_, ?_⟩
        · rw [hl, hsplit, hsplit2]
          simp [List.append_assoc]
        · rw [hval, ← hpr]
        · omega
        · intro z hzm
          rw [hprq]
          rw [hl] at hzm
          rcases List.mem_append.mp hzm with hm | hm
          · rw [hz z hm]
            omega
          rcases List.mem_cons.mp hm with hm1 | hm1
          · subst hm1
            omega
          · have : (z.1, tone_score z.2 (lowerS text)) ∈ x :: l1.map
                (fun p => (p.1, tone_score p.2 (lowerS text))) := by
              simp only [List.mem_cons, List.mem_map]
              exact Or.inr ⟨z, hm1, rfl⟩
            exact hle _ this
        · intro z hzm
          rw [hprq]
          rcases List.mem_append.mp hzm with hm | hm
          · rw [hz z hm]
            omega
          rcases List.mem_cons.mp hm with hm1 | hm1
          · subst hm1
            omega
          · have hmem : (z.1, tone_score z.2 (lowerS text)) ∈ u₂ := by
              rw [← hmap1]
              exact List.mem_map.mpr ⟨z, hm1, rfl⟩
            exact hu _ (List.mem_cons.mpr (Or.inr hmem))

/-! ### Capitalization preservation (C7) -/

/-- C7: in every improved version assembled by `suggest_improved_dialogue`, the
text substituted for a matched cliché phrase is `preserve_capitalization
original replacement` (see `replace_cliches`); whenever the matched original
phrase begins with an uppercase letter, and the candidate replacement begins
with an ASCII letter of either case, the substituted replacement begins with an
uppercase letter. -/
theorem C7_capitalization (o r : Str) (oc rc : Char)
    (ho : o.head? = some oc) (hoc : oc.isUpper = true)
    (hr : r.head? = some rc) (hrc : rc.isAlpha = true) :
    ∃ c rest, preserve_capitalization o r = c :: rest ∧ c.isUpper = true := by
  cases o with
  | nil => simp at ho
  | cons a o2 =>
    have ha : a = oc := by simpa using ho
    subst ha
    cases r with
    | nil => simp at hr
    | cons b r2 =>
      have hb : b = rc := by simpa using hr
      subst hb
      cases r2 with
      | nil =>
        refine ⟨Char.toUpper b, [], ?_, isUpper_toUpper hrc⟩
        simp [preserve_capitalization, hoc]
      | cons d r3 =>
        refine ⟨Char.toUpper b, d :: r3, ?_, isUpper_toUpper hrc⟩
        simp [preserve_capitalization, hoc]

/-- C7, witness: a concrete instance, the cliché `"Perfect storm"` replaced by the
candidate `"worst-case scenario"`. -/
theorem C7_capitalization_witness :
    ∃ c rest,
      preserve_capitalization ("Perfect storm".data) ("worst-case scenario".data)
        = c :: rest ∧ c.isUpper = true :=
  C7_capitalization ("Perfect storm".data) ("worst-case scenario".data) 'P' 'w'
    (by decide) (by decide) (by decide) (by decide)

/-! ### Patterns without alternatives produce no `DialogueAlternative` (C10) -/

theorem length_filterMap_countP {α β : Type} (f : α → Option β) (l : List α) :
    (l.filterMap f).length = l.countP (fun a => (f a).isSome) := by
  induction l with
  | nil => rfl
  | cons a t ih =>
    rw [List.filterMap_cons, List.countP_cons]
    rcases hf : f a with _ | b
    · simp [hf, ih]
    · simp [hf, ih]

/-- C10: (i) for every oracle, speaker and text, `generate_dialogue_alternatives`
produces exactly one `DialogueAlternative` per detected occurrence whose pattern
has a (non-empty) entry in the alternatives table — occurrences of the 7
patterns without an entry produce none; (ii) exactly 7 of the 19 loaded
patterns have no entry; (iii) for the text `"Every rose has its thorn."` one
cliché is detected by `_detect_cliches`, yet for every oracle the
dialogue-alternatives list and the improved-versions list are both empty. -/
theorem C10_missing_alternatives :
    (∀ (sample : List Str → ℕ → List Str) (adapt : String → List Str → Str → List Str)
      (speaker : String) (text : Str) (num : ℕ),
      (generate_dialogue_alternatives sample adapt speaker text num).length
        = (detect_cliche_occurrences text).countP
            (fun oc => !(alookup cliche_alternatives oc.pattern).isEmpty)) ∧
    (cliche_patterns.filter (fun p => (alookup cliche_alternatives p).isEmpty)).length = 7 ∧
    (∀ (sample : List Str → ℕ → List Str) (adapt : String → List Str → Str → List Str)
      (speaker : String) (num : ℕ),
      (detect_cliches ("Every rose has its thorn.".data)).length = 1 ∧
      generate_dialogue_alternatives sample adapt speaker
        ("Every rose has its thorn.".data) num = [] ∧
      improved_versions
        (generate_dialogue_alternatives sample adapt speaker
          ("Every rose has its thorn.".data) num)
        ("Every rose has its thorn.".data) = []) := by
  have hgen : ∀ (sample : List Str → ℕ → List Str)
      (adapt : String → List Str → Str → List Str) (speaker : String) (text : Str) (num : ℕ),
      (generate_dialogue_alternatives sample adapt speaker text num).length
        = (detect_cliche_occurrences text).countP
            (fun oc => !(alookup cliche_alternatives oc.pattern).isEmpty) := by
    intro sample adapt speaker text num
    unfold generate_dialogue_alternatives
    rw [length_filterMap_countP]
    apply List.countP_congr
    intro oc _
    rcases hb : (alookup cliche_alternatives oc.pattern).isEmpty with _ | _
    · simp [hb]
    · simp [hb]
  refine ⟨hgen, by decide, ?_⟩
  intro sample adapt speaker num
  have hocc : detect_cliche_occurrences ("Every rose has its thorn.".data)
      = [⟨"Every rose has its thorn".data, "every rose has its thorn".data, 0, 24⟩] := by
    unfold detect_cliche_occurrences
    simp only [findOccs_eval]
    decide
  have hempty : generate_dialogue_alternatives sample adapt speaker
      ("Every rose has its thorn.".data) num = [] := by
    unfold generate_dialogue_alternatives
    rw [hocc]
    rfl
  refine ⟨by decide, hempty, ?_⟩
  rw [hempty]
  rfl

/-! ### Occurrence detection: soundness, completeness, separation (C4) -/

theorem take_of_startsW : ∀ {p t : Str}, startsW p t = true →
    t.take p.length = p ∧ p.length ≤ t.length := by
  intro p
  induction p with
  | nil =>
    intro t _
    simp
  | cons a ps ih =>
    intro t h
    cases t with
    | nil => simp [startsW] at h
    | cons b ts =>
      rw [startsW, Bool.and_eq_true, beq_iff_eq] at h
      obtain ⟨hab, hs⟩ := h
      obtain ⟨h1, h2⟩ := ih hs
      subst hab
      refine ⟨?_, by simpa using h2⟩
      simp [List.take_cons, h1]

theorem findOccsF_sound (p : Str) :
    ∀ (fuel : ℕ) (s : Str) (i a b : ℕ), (a, b) ∈ findOccsF p fuel s i →
      i ≤ a ∧ b = a + p.length ∧ startsW p (s.drop (a - i)) = true := by
  intro fuel
  induction fuel with
  | zero =>
    intro s i a b h
    simp [findOccsF] at h
  | succ n ih =>
    intro s i a b h
    cases s with
    | nil => simp [findOccsF] at h
    | cons c t =>
      rw [findOccsF] at h
      by_cases hc : ¬p.isEmpty ∧ startsW p (c :: t) = true
      · rw [if_pos hc] at h
        rcases List.mem_cons.mp h with h1 | h1
        · rw [Prod.mk.injEq] at h1
          obtain ⟨ha, hb⟩ := h1
          subst ha
          subst hb
          simpa using hc.2
        · obtain ⟨h2, h3, h4⟩ := ih _ _ a b h1
          have hlen : 1 ≤ p.length := by
            cases p with
            | nil => simp at hc
            | cons x y => simp
          refine ⟨by omega, h3, ?_⟩
          rw [List.drop_drop] at h4
          have harith : p.length + (a - (i + p.length)) = a - i := by omega
          rw [harith] at h4
          exact h4
      · rw [if_neg hc] at h
        obtain ⟨h2, h3, h4⟩ := ih t (i + 1) a b h
        refine ⟨by omega, h3, ?_⟩
        have harith : a - i = (a - (i + 1)) + 1 := by omega
        rw [harith, List.drop_succ_cons]
        exact h4

theorem findOccsF_chain (p : Str) :
    ∀ (fuel : ℕ) (s : Str) (i : ℕ),
      (∀ ab ∈ findOccsF p fuel s i, i ≤ ab.1) ∧
      List.Chain' (fun x y : ℕ × ℕ => x.1 < y.1) (findOccsF p fuel s i) := by
  intro fuel
  induction fuel with
  | zero =>
    intro s i
    simp [findOccsF]
  | succ n ih =>
    intro s i
    cases s with
    | nil => simp [findOccsF]
    | cons c t =>
      rw [findOccsF]
      by_cases hc : ¬p.isEmpty ∧ startsW p (c :: t) = true
      · rw [if_pos hc]
        have hlen : 1 ≤ p.length := by
          cases p with
          | nil => simp at hc
          | cons x y => simp
        obtain ⟨hbound, hchain⟩ := ih ((c :: t).drop p.length) (i + p.length)
        constructor
        · intro ab hab
          rcases List.mem_cons.mp hab with h1 | h1
          · rw [h1]
          · have := hbound ab h1
            omega
        · rw [List.chain'_cons']
          refine ⟨?_, hchain⟩
          intro b hb
          have hbm : b ∈ findOccsF p n ((c :: t).drop p.length) (i + p.length) :=
            List.mem_of_mem_head? hb
          have := hbound b hbm
          omega
      · rw [if_neg hc]
        obtain ⟨hbound, hchain⟩ := ih t (i + 1)
        exact ⟨fun ab hab => by have := hbound ab hab; omega, hchain⟩

theorem findOccsF_ne_nil (p : Str) (hp : ¬p.isEmpty) :
    ∀ (fuel : ℕ) (s : Str) (i : ℕ), s.length ≤ fuel → occursIn p s = true →
      findOccsF p fuel s i ≠ [] := by
  intro fuel
  induction fuel with
  | zero =>
    intro s i hs ho
    rw [List.eq_nil_of_length_eq_zero (Nat.le_zero.mp hs)] at ho
    rw [occursIn] at ho
    rw [ho] at hp
    exact absurd rfl hp
  | succ n ih =>
    intro s i hs ho
    cases s with
    | nil =>
      rw [occursIn] at ho
      rw [ho] at hp
      exact absurd rfl hp
    | cons c t =>
      rw [findOccsF]
      by_cases hc : ¬p.isEmpty ∧ startsW p (c :: t) = true
      · rw [if_pos hc]
        exact List.cons_ne_nil _ _
      · rw [if_neg hc]
        have hst : startsW p (c :: t) = false := by
          rcases hw : startsW p (c :: t) with _ | _
          · rfl
          · exact absurd ⟨hp, hw⟩ hc
        rw [occursIn, hst, Bool.false_or] at ho
        rw [List.length_cons] at hs
        exact ih t (i + 1) (by omega) ho

theorem lowerS_slice (s : Str) (a b : ℕ) : lowerS (slice s a b) = slice (lowerS s) a b := by
  unfold lowerS slice
  rw [List.map_take, List.map_drop]

/-- Members of the occurrence list are built from `findOccs` spans of their pattern. -/
theorem mem_detect_cliche_occurrences {text : Str} {e : ClicheOccurrence}
    (h : e ∈ detect_cliche_occurrences text) :
    e.pattern ∈ cliche_patterns ∧
      (e.start_pos, e.end_pos) ∈ findOccs e.pattern (lowerS text) 0 ∧
      e.phrase = slice text e.start_pos e.end_pos := by
  unfold detect_cliche_occurrences at h
  rw [List.mem_flatMap] at h
  obtain ⟨p, hp, hm⟩ := h
  rw [List.mem_map] at hm
  obtain ⟨sp, hsp, he⟩ := hm
  subst he
  exact ⟨hp, hsp, rfl⟩

theorem countP_beq_le_one_of_nodup {l : List Str} (hnd : l.Nodup) (p : Str) :
    l.countP (fun q => q == p) ≤ 1 := by
  induction l with
  | nil => simp
  | cons a t ih =>
    rw [List.countP_cons]
    rcases hap : (a == p) with _ | _
    · simpa using ih (List.nodup_cons.mp hnd).2
    · have hap2 : a = p := beq_iff_eq.mp hap
      subst hap2
      have hnotin : a ∉ t := (List.nodup_cons.mp hnd).1
      have h0 : t.countP (fun q => q == a) = 0 := by
        rw [List.countP_eq_zero]
        intro q hq
        simp only [beq_iff_eq]
        intro he
        exact hnotin (he ▸ hq)
      simp [h0]

theorem filter_pattern_flatMap (text : Str) (p : Str) :
    ∀ (pats : List Str), pats.Nodup →
      ((pats.flatMap (fun q => (findOccs q (lowerS text) 0).map
          (fun sp => ClicheOccurrence.mk (slice text sp.1 sp.2) q sp.1 sp.2))).filter
        (fun e => e.pattern == p))
      = if p ∈ pats then (findOccs p (lowerS text) 0).map
          (fun sp => ClicheOccurrence.mk (slice text sp.1 sp.2) p sp.1 sp.2) else [] := by
  intro pats
  induction pats with
  | nil =>
    intro _
    simp
  | cons q rest ih =>
    intro hnd
    rw [List.flatMap_cons, List.filter_append, ih (List.nodup_cons.mp hnd).2]
    by_cases hqp : q = p
    · subst hqp
      have h1 : List.filter (fun e => e.pattern == q)
          ((findOccs q (lowerS text) 0).map
            (fun sp => ClicheOccurrence.mk (slice text sp.1 sp.2) q sp.1 sp.2))
          = (findOccs q (lowerS text) 0).map
            (fun sp => ClicheOccurrence.mk (slice text sp.1 sp.2) q sp.1 sp.2) := by
        apply List.filter_eq_self.mpr
        intro e he
        rw [List.mem_map] at he
        obtain ⟨sp, _, he2⟩ := he
        rw [← he2]
        exact beq_self_eq_true q
      rw [h1, if_neg (List.nodup_cons.mp hnd).1, if_pos (List.mem_cons_self q rest),
        List.append_nil]
    · have h1 : List.filter (fun e => e.pattern == p)
          ((findOccs q (lowerS text) 0).map
            (fun sp => ClicheOccurrence.mk (slice text sp.1 sp.2) q sp.1 sp.2)) = [] := by
        apply List.filter_eq_nil_iff.mpr
        intro e he
        rw [List.mem_map] at he
        obtain ⟨sp, _, he2⟩ := he
        rw [← he2]
        simp [hqp]
      rw [h1, List.nil_append]
      by_cases hpr : p ∈ rest
      · rw [if_pos hpr, if_pos (List.mem_cons_of_mem q hpr)]
      · rw [if_neg hpr, if_neg (by
          intro hmem
          rcases List.mem_cons.mp hmem with h2 | h2
          · exact hqp h2.symm
          · exact hpr h2)]

/-- C4, amended: the occurrence-level detection of `generate_dialogue_alternatives`
is per-occurrence and case-faithful: (i) every reported entry carries a library
pattern, a span whose lowered slice is exactly the pattern, and the original-cased
substring of the text at that span; (ii) every library pattern that occurs
case-insensitively anywhere in the text yields at least one entry; (iii) for each
pattern the reported spans are strictly increasing, so distinct occurrences are
reported separately; (iv) the pattern-level `_detect_cliches`, in contrast,
reports each matching pattern at most once (and carries no span at all). -/
theorem C4_occurrence_detection (text : Str) :
    (∀ e ∈ detect_cliche_occurrences text,
      e.pattern ∈ cliche_patterns ∧
      e.end_pos = e.start_pos + e.pattern.length ∧
      slice (lowerS text) e.start_pos e.end_pos = e.pattern ∧
      e.phrase = slice text e.start_pos e.end_pos ∧
      lowerS e.phrase = e.pattern) ∧
    (∀ p ∈ cliche_patterns, occursIn p (lowerS text) = true →
      ∃ e ∈ detect_cliche_occurrences text, e.pattern = p) ∧
    (∀ p : Str, List.Chain' (· < ·)
      (((detect_cliche_occurrences text).filter
        (fun e => e.pattern == p)).map (fun e => e.start_pos))) ∧
    (∀ p : Str, (detect_cliches text).countP (fun rep => rep.pattern == p) ≤ 1) := by
  refine ⟨?_, ?_, ?_, ?_⟩
  · intro e he
    obtain ⟨hp, hsp, hph⟩ := mem_detect_cliche_occurrences he
    rw [findOccs_eval] at hsp
    obtain ⟨h0, hend, hst⟩ := findOccsF_sound _ _ _ _ _ _ hsp
    rw [Nat.sub_zero] at hst
    obtain ⟨htake, _⟩ := take_of_startsW hst
    have hslice : slice (lowerS text) e.start_pos e.end_pos = e.pattern := by
      unfold slice
      rw [hend, Nat.add_sub_cancel_left]
      exact htake
    exact ⟨hp, hend, hslice, hph, by rw [hph, lowerS_slice, hslice]⟩
  · intro p hp hocc
    have hall : ∀ q ∈ cliche_patterns, ¬q.isEmpty := by decide
    have hpne : ¬p.isEmpty := hall p hp
    have hne : findOccs p (lowerS text) 0 ≠ [] := by
      rw [findOccs_eval]
      exact findOccsF_ne_nil p hpne _ _ _ (le_refl _) hocc
    obtain ⟨sp, hsp⟩ := List.exists_mem_of_ne_nil _ hne
    refine ⟨⟨slice text sp.1 sp.2, p, sp.1, sp.2⟩, ?_, rfl⟩
    unfold detect_cliche_occurrences
    rw [List.mem_flatMap]
    exact ⟨p, hp, List.mem_map.mpr ⟨sp, hsp, rfl⟩⟩
  · intro p
    unfold detect_cliche_occurrences
    have hnd : cliche_patterns.Nodup := by decide
    rw [filter_pattern_flatMap text p cliche_patterns hnd]
    by_cases hp : p ∈ cliche_patterns
    · rw [if_pos hp, List.map_map]
      have hcomp : ((fun e : ClicheOccurrence => e.start_pos) ∘
          (fun sp : ℕ × ℕ => ClicheOccurrence.mk (slice text sp.1 sp.2) p sp.1 sp.2))
          = (fun sp : ℕ × ℕ => sp.1) := rfl
      rw [hcomp]
      rw [List.chain'_map]
      rw [findOccs_eval]
      exact (findOccsF_chain p _ _ _).2
    · rw [if_neg hp]
      exact List.chain'_nil
  · intro p
    unfold detect_cliches
    rw [List.countP_map]
    have hcomp : ((fun rep : ClicheReport => rep.pattern == p) ∘
        (fun q : Str => ClicheReport.mk q "medium" "Consider rephrasing to be more original"))
        = (fun q : Str => q == p) := rfl
    rw [hcomp]
    calc (List.filter (fun q => occursIn q (lowerS text)) cliche_patterns).countP
          (fun q : Str => q == p)
        ≤ cliche_patterns.countP (fun q : Str => q == p) :=
          (List.filter_sublist _).countP_le _
      _ ≤ 1 := countP_beq_le_one_of_nodup (show cliche_patterns.Nodup by decide) p

/-- C4, counterexample to the claim as stated: in
`"Perfect storm! perfect storm."` the pattern `"perfect storm"` has two
case-insensitive occurrences, but `_detect_cliches` — the cliché detection whose
reports `analyze_dialogue_line` returns under `cliches_detected` — produces a
single report (with no span or matched-substring field), not one per occurrence:
its report list has length 1 while the occurrence list has length 2. -/
theorem C4_counterexample :
    (detect_cliches ("Perfect storm! perfect storm.".data)).length = 1 ∧
    (detect_cliche_occurrences ("Perfect storm! perfect storm.".data)).length = 2 ∧
    (1 : ℕ) ≠ 2 := by
  refine ⟨by decide, ?_, by decide⟩
  unfold detect_cliche_occurrences
  simp only [findOccs_eval]
  decide

/-! ### Error values for missing character / missing scene context (C9) -/

/-- C9: querying a voice summary for an unregistered character returns the
explicit error value (not a crash), and asking for a context-aware suggestion
before any scene context is set returns the explicit error value; in both
cases the session state is returned unchanged. -/
theorem C9_error_values (st : DCState) (name speaker hint : String)
    (h1 : dlookup st.characters name = none) (h2 : st.scene_context = none) :
    (∃ msg, get_character_voice_summary st name = (Except.error msg, st)) ∧
    (∃ msg, generate_context_aware_suggestion st speaker hint = (Except.error msg, st)) := by
  constructor
  · refine ⟨"Character " ++ name ++ " not found", ?_⟩
    unfold get_character_voice_summary
    rw [h1]
  · refine ⟨"No scene context set. Use set_scene_context() first.", ?_⟩
    unfold generate_context_aware_suggestion
    rw [h2]

/-- C9, witness: the fresh session, queried for the unregistered character
`"Ghost"` and for a context-aware suggestion before any scene is set. -/
theorem C9_error_values_witness :
    (∃ msg, get_character_voice_summary initState "Ghost" = (Except.error msg, initState)) ∧
    (∃ msg, generate_context_aware_suggestion initState "Ghost" ""
      = (Except.error msg, initState)) :=
  C9_error_values initState "Ghost" "Ghost" "" rfl rfl

/-! ### The export's incidental re-analysis mutates the session (C1) -/

/-- C1 is a bug of the code, witnessed here: in the session reached by one call
`analyze_dialogue_line("A", "Hi")`, the state after `export_analysis_report`
has two history records where the session had one — `_analyze_overall_patterns`
re-runs `analyze_dialogue_line` on the stored line while aggregating the
historical cliché frequency, appending a fresh `DialogueLine` (and, for
registered speakers, bumping their `dialogue_count`), exactly what the claim
says must not happen.  (In CPython the mutation is even a divergence: the
generator iterates `self.dialogue_history` while the calls grow it.) -/
theorem C1_export_mutates :
    (export_analysis_report_state (run [Op.analyze "A" ("Hi".data) ""])).dialogue_history.length
      = 2 ∧
    (run [Op.analyze "A" ("Hi".data) ""]).dialogue_history.length = 1 ∧
    (2 : ℕ) ≠ 1 :=
  ⟨rfl, rfl, by decide⟩

/-! ### Dict lemmas (`dlookup`, `dinsert`) -/

theorem find?_key_cons_pos {k : String} {pr : String × Character}
    (t : List (String × Character)) (h : (pr.1 == k) = true) :
    (pr :: t).find? (fun x => x.1 == k) = some pr :=
  List.find?_cons_of_pos (p := fun x => x.1 == k) t h

theorem find?_key_cons_neg {k : String} {pr : String × Character}
    (t : List (String × Character)) (h : ¬(pr.1 == k) = true) :
    (pr :: t).find? (fun x => x.1 == k) = t.find? (fun x => x.1 == k) :=
  List.find?_cons_of_neg (p := fun x => x.1 == k) t h

theorem dlookup_none_forall {l : List (String × Character)} {k : String}
    (h : dlookup l k = none) : ∀ pr ∈ l, ¬(pr.1 = k) := by
  intro pr hpr he
  unfold dlookup at h
  cases hf : l.find? (fun x => x.1 == k) with
  | none =>
    have := List.find?_eq_none.mp hf pr hpr
    exact this (by simpa using he)
  | some x =>
    rw [hf] at h
    exact absurd h (by simp)

theorem dlookup_some_mem {l : List (String × Character)} {k : String} {c : Character}
    (h : dlookup l k = some c) : ∃ pr ∈ l, pr.1 = k ∧ pr.2 = c := by
  unfold dlookup at h
  cases hf : l.find? (fun x => x.1 == k) with
  | none =>
    rw [hf] at h
    exact absurd h (by simp)
  | some pr =>
    rw [hf] at h
    have h2 : pr.2 = c := by
      injection h
    exact ⟨pr, List.mem_of_find?_eq_some hf, by simpa using List.find?_some hf, h2⟩

theorem mem_dinsert {l : List (String × Character)} {k : String} {v : Character}
    {pr : String × Character} (h : pr ∈ dinsert l k v) :
    pr = (k, v) ∨ (pr ∈ l ∧ ¬(pr.1 = k)) := by
  unfold dinsert at h
  by_cases hf : (l.find? (fun x => x.1 == k)).isSome
  · rw [if_pos hf] at h
    rw [List.mem_map] at h
    obtain ⟨x, hx, he⟩ := h
    by_cases hxk : (x.1 == k) = true
    · rw [if_pos hxk] at he
      exact Or.inl he.symm
    · rw [if_neg hxk] at he
      refine Or.inr ⟨he ▸ hx, ?_⟩
      rw [← he]
      intro hc
      exact hxk (by simpa using hc)
  · rw [if_neg hf] at h
    rcases List.mem_append.mp h with h1 | h1
    · refine Or.inr ⟨h1, ?_⟩
      have hfn : l.find? (fun x => x.1 == k) = none := by
        cases hff : l.find? (fun x => x.1 == k) with
        | none => rfl
        | some x =>
          rw [hff] at hf
          exact absurd rfl hf
      intro hc
      exact (List.find?_eq_none.mp hfn pr h1) (by simpa using hc)
    · exact Or.inl (by simpa using h1)

theorem dlookup_dinsert_self (k : String) (v : Character) :
    ∀ l : List (String × Character), dlookup (dinsert l k v) k = some v := by
  intro l
  induction l with
  | nil =>
    unfold dinsert
    rw [if_neg (by simp)]
    unfold dlookup
    rw [List.nil_append, find?_key_cons_pos _ (by simp)]
  | cons pr t ih =>
    by_cases hpr : (pr.1 == k) = true
    · have hf : ((pr :: t).find? (fun x => x.1 == k)).isSome = true := by
        rw [find?_key_cons_pos _ hpr]
        rfl
      unfold dinsert
      rw [if_pos hf, List.map_cons, if_pos hpr]
      unfold dlookup
      rw [find?_key_cons_pos _ (by simp)]
    · by_cases hft : (t.find? (fun x => x.1 == k)).isSome
      · have hf : ((pr :: t).find? (fun x => x.1 == k)).isSome = true := by
          rw [find?_key_cons_neg _ hpr]
          exact hft
        unfold dinsert
        rw [if_pos hf, List.map_cons, if_neg hpr]
        unfold dlookup
        rw [find?_key_cons_neg _ hpr]
        have h2 := ih
        unfold dinsert at h2
        rw [if_pos hft] at h2
        unfold dlookup at h2
        exact h2
      · have hf : ¬ ((pr :: t).find? (fun x => x.1 == k)).isSome = true := by
          rw [find?_key_cons_neg _ hpr]
          exact hft
        unfold dinsert
        rw [if_neg hf, List.cons_append]
        unfold dlookup
        rw [find?_key_cons_neg _ hpr]
        have h2 := ih
        unfold dinsert at h2
        rw [if_neg hft] at h2
        unfold dlookup at h2
        exact h2

theorem find?_map_replace_ne (k k' : String) (v : Character) (hne : ¬(k' = k)) :
    ∀ t : List (String × Character),
      (t.map (fun x => if (x.1 == k) = true then (k, v) else x)).find? (fun x => x.1 == k')
        = t.find? (fun x => x.1 == k') := by
  intro t
  induction t with
  | nil => rfl
  | cons q u ihq =>
    rw [List.map_cons]
    by_cases hq : (q.1 == k) = true
    · rw [if_pos hq, find?_key_cons_neg _ (by simpa using fun h => hne h.symm),
        find?_key_cons_neg _ (by
          simp only [beq_iff_eq]
          have hqk : q.1 = k := by simpa using hq
          rw [hqk]
          exact fun h => hne h.symm), ihq]
    · rw [if_neg hq]
      by_cases hq' : (q.1 == k') = true
      · rw [find?_key_cons_pos _ hq', find?_key_cons_pos _ hq']
      · rw [find?_key_cons_neg _ hq', find?_key_cons_neg _ hq', ihq]

theorem dlookup_dinsert_ne (k k' : String) (v : Character) (hne : ¬(k' = k)) :
    ∀ l : List (String × Character), dlookup (dinsert l k v) k' = dlookup l k' := by
  intro l
  induction l with
  | nil =>
    unfold dinsert
    rw [if_neg (by simp)]
    unfold dlookup
    rw [List.nil_append, find?_key_cons_neg _ (by simpa using fun h => hne h.symm)]
  | cons pr t ih =>
    by_cases hpr : (pr.1 == k) = true
    · have hprk : pr.1 = k := by simpa using hpr
      have hprk' : ¬((pr.1 == k') = true) := by
        simp only [beq_iff_eq, hprk]
        exact fun h => hne h.symm
      have hf : ((pr :: t).find? (fun x => x.1 == k)).isSome = true := by
        rw [find?_key_cons_pos _ hpr]
        rfl
      unfold dinsert
      rw [if_pos hf, List.map_cons, if_pos hpr]
      unfold dlookup
      rw [find?_key_cons_neg _ (by simpa using fun h => hne h.symm),
        find?_key_cons_neg _ hprk', find?_map_replace_ne k k' v hne t]
    · by_cases hft : (t.find? (fun x => x.1 == k)).isSome
      · have hf : ((pr :: t).find? (fun x => x.1 == k)).isSome = true := by
          rw [find?_key_cons_neg _ hpr]
          exact hft
        unfold dinsert
        rw [if_pos hf, List.map_cons, if_neg hpr]
        unfold dlookup
        by_cases hpk' : (pr.1 == k') = true
        · rw [find?_key_cons_pos _ hpk', find?_key_cons_pos _ hpk']
        · rw [find?_key_cons_neg _ hpk', find?_key_cons_neg _ hpk']
          have h2 := ih
          unfold dinsert at h2
          rw [if_pos hft] at h2
          unfold dlookup at h2
          exact h2
      · have hf : ¬ ((pr :: t).find? (fun x => x.1 == k)).isSome = true := by
          rw [find?_key_cons_neg _ hpr]
          exact hft
        unfold dinsert
        rw [if_neg hf, List.cons_append]
        unfold dlookup
        by_cases hpk' : (pr.1 == k') = true
        · rw [find?_key_cons_pos _ hpk', find?_key_cons_pos _ hpk']
        · rw [find?_key_cons_neg _ hpk', find?_key_cons_neg _ hpk']
          have h2 := ih
          unfold dinsert at h2
          rw [if_neg hft] at h2
          unfold dlookup at h2
          exact h2

theorem countSpeaker_append (h : List DialogueLine) (line : DialogueLine) (n : String) :
    countSpeaker (h ++ [line]) n
      = countSpeaker h n + (if line.speaker == n then 1 else 0) := by
  unfold countSpeaker
  rw [List.countP_append, List.countP_cons, List.countP_nil, Nat.zero_add]

/-! ### The dialogue-count invariant (C3) -/

theorem update_history (st : DCState) (sp : String) (text : Str) :
    (update_character_patterns st sp text).dialogue_history = st.dialogue_history := by
  unfold update_character_patterns
  cases hl : dlookup st.characters sp with
  | none => rfl
  | some c => rfl

theorem update_characters_none (st : DCState) (sp : String) (text : Str)
    (h : dlookup st.characters sp = none) :
    (update_character_patterns st sp text).characters = st.characters := by
  unfold update_character_patterns
  rw [h]

theorem update_characters_some (st : DCState) (sp : String) (text : Str) (c : Character)
    (h : dlookup st.characters sp = some c) :
    ∃ c2, (update_character_patterns st sp text).characters = dinsert st.characters sp c2 ∧
      c2.dialogue_count = c.dialogue_count + 1 := by
  unfold update_character_patterns
  rw [h]
  refine ⟨_, rfl, ?_⟩
  split
  · rfl
  · rfl

theorem analyze_state_history (st : DCState) (sp : String) (text : Str) (ctx : String) :
    (analyze_dialogue_line_state st sp text ctx).dialogue_history
      = st.dialogue_history
        ++ [⟨sp, text, ctx, analyze_tone text, "", st.dialogue_history.length⟩] := by
  unfold analyze_dialogue_line_state
  rw [update_history]

theorem analyze_state_characters_none (st : DCState) (sp : String) (text : Str)
    (ctx : String) (h : dlookup st.characters sp = none) :
    (analyze_dialogue_line_state st sp text ctx).characters = st.characters := by
  unfold analyze_dialogue_line_state
  exact update_characters_none _ sp text h

theorem analyze_state_characters_some (st : DCState) (sp : String) (text : Str)
    (ctx : String) (c : Character) (h : dlookup st.characters sp = some c) :
    ∃ c2, (analyze_dialogue_line_state st sp text ctx).characters
        = dinsert st.characters sp c2 ∧
      c2.dialogue_count = c.dialogue_count + 1 := by
  unfold analyze_dialogue_line_state
  exact update_characters_some _ sp text c h

theorem foldl_step_count_invariant :
    ∀ (ops : List Op) (st : DCState) (forbidden : List String),
      (∀ pr ∈ st.characters, pr.2.dialogue_count = countSpeaker st.dialogue_history pr.1) →
      (∀ n : String, ¬(forbidden.contains n = true) → countSpeaker st.dialogue_history n = 0) →
      wfOps ops forbidden = true →
      ∀ pr ∈ (ops.foldl step st).characters,
        pr.2.dialogue_count = countSpeaker (ops.foldl step st).dialogue_history pr.1 := by
  intro ops
  induction ops with
  | nil =>
    intro st forb hinv _ _
    simpa using hinv
  | cons op rest ih =>
    intro st forb hinv haux hwf
    rw [List.foldl_cons]
    cases op with
    | addChar n vd =>
      rw [wfOps, Bool.and_eq_true] at hwf
      obtain ⟨hnotin, hwfr⟩ := hwf
      refine ih _ forb ?_ ?_ hwfr
      · intro pr hpr
        simp only [step, add_character] at hpr ⊢
        rcases mem_dinsert hpr with he | ⟨hm, _⟩
        · rw [he]
          have h0 := haux n (by simpa using hnotin)
          exact h0.symm
        · exact hinv pr hm
      · intro n2 hn2
        simp only [step, add_character]
        exact haux n2 hn2
    | setScene s m t c p =>
      have hwf' : wfOps rest forb = true := hwf
      refine ih _ forb ?_ ?_ hwf'
      · intro pr hpr
        simp only [step, set_scene_context] at hpr ⊢
        exact hinv pr hpr
      · intro n2 hn2
        simp only [step, set_scene_context]
        exact haux n2 hn2
    | suggest sp txt =>
      have hwf' : wfOps rest forb = true := hwf
      exact ih _ forb hinv haux hwf'
    | querySummary nm =>
      have hwf' : wfOps rest forb = true := hwf
      exact ih _ forb hinv haux hwf'
    | queryContext sp hint =>
      have hwf' : wfOps rest forb = true := hwf
      exact ih _ forb hinv haux hwf'
    | analyze sp text ctx =>
      rw [wfOps] at hwf
      refine ih _ (sp :: forb) ?_ ?_ hwf
      · intro pr hpr
        have hstep : step st (Op.analyze sp text ctx) = analyze_dialogue_line_state st sp text ctx := rfl
        rw [hstep] at hpr ⊢
        rw [analyze_state_history]
        cases hl : dlookup st.characters sp with
        | none =>
          rw [analyze_state_characters_none st sp text ctx hl] at hpr
          rw [countSpeaker_append]
          have hne : ¬(pr.1 = sp) := by
            intro he
            exact dlookup_none_forall hl pr hpr he
          rw [if_neg (by simpa using fun h => hne h.symm), Nat.add_zero]
          exact hinv pr hpr
        | some c =>
          obtain ⟨c2, hchars, hcount⟩ := analyze_state_characters_some st sp text ctx c hl
          rw [hchars] at hpr
          rw [countSpeaker_append]
          rcases mem_dinsert hpr with he | ⟨hm, hne⟩
          · rw [he]
            obtain ⟨pr0, hpr0, hkey, hval⟩ := dlookup_some_mem hl
            have hbase := hinv pr0 hpr0
            rw [hkey, hval] at hbase
            have hsp : ((⟨sp, text, ctx, analyze_tone text, "",
                st.dialogue_history.length⟩ : DialogueLine).speaker == sp) = true := by
              simp
            rw [if_pos hsp]
            show c2.dialogue_count = countSpeaker st.dialogue_history sp + 1
            rw [hcount, hbase]
          · have hne2 : ¬ (((⟨sp, text, ctx, analyze_tone text, "",
                st.dialogue_history.length⟩ : DialogueLine).speaker == pr.1) = true) := by
              simpa using fun h => hne h.symm
            rw [if_neg hne2, Nat.add_zero]
            exact hinv pr hm
      · intro n2 hn2
        have hstep : step st (Op.analyze sp text ctx) = analyze_dialogue_line_state st sp text ctx := rfl
        rw [hstep, analyze_state_history, countSpeaker_append]
        rw [List.contains_cons] at hn2
        have hor : (n2 == sp || forb.contains n2) = false := by
          cases h : (n2 == sp || forb.contains n2) with
          | false => rfl
          | true => exact absurd h hn2
        rw [Bool.or_eq_false_iff] at hor
        have hne2 : ¬(((⟨sp, text, ctx, analyze_tone text, "",
            st.dialogue_history.length⟩ : DialogueLine).speaker == n2) = true) := by
          intro h
          have hsp : sp = n2 := beq_iff_eq.mp h
          have : (n2 == sp) = true := beq_iff_eq.mpr hsp.symm
          rw [hor.1] at this
          exact Bool.false_ne_true this
        rw [if_neg hne2, Nat.add_zero]
        exact haux n2 (fun hcc => Bool.false_ne_true (hor.2 ▸ hcc))

/-! ### The running-average invariant (C2) -/

theorem update_characters_some_avg (st : DCState) (sp : String) (text : Str)
    (c : Character) (h : dlookup st.characters sp = some c)
    (hne : (sentence_word_counts text).isEmpty = false) :
    (update_character_patterns st sp text).characters
      = dinsert st.characters sp
          { c with
            dialogue_count := c.dialogue_count + 1
            avg_sentence_length :=
              (c.avg_sentence_length * ((Nat.cast (c.dialogue_count + 1) : ℚ) - 1)
                + meanQ ((sentence_word_counts text).map (fun k => (Nat.cast k : ℚ))))
                / (Nat.cast (c.dialogue_count + 1) : ℚ) } := by
  unfold update_character_patterns
  rw [h]
  simp only [hne, Bool.false_eq_true, if_false]

theorem update_characters_some_empty (st : DCState) (sp : String) (text : Str)
    (c : Character) (h : dlookup st.characters sp = some c)
    (he : (sentence_word_counts text).isEmpty = true) :
    (update_character_patterns st sp text).characters
      = dinsert st.characters sp { c with dialogue_count := c.dialogue_count + 1 } := by
  unfold update_character_patterns
  rw [h]
  simp only [he, eq_self_iff_true, if_true]

theorem analyze_characters_some_avg (st : DCState) (sp : String) (text : Str)
    (ctx : String) (c : Character) (h : dlookup st.characters sp = some c)
    (hne : (sentence_word_counts text).isEmpty = false) :
    (analyze_dialogue_line_state st sp text ctx).characters
      = dinsert st.characters sp
          { c with
            dialogue_count := c.dialogue_count + 1
            avg_sentence_length :=
              (c.avg_sentence_length * ((Nat.cast (c.dialogue_count + 1) : ℚ) - 1)
                + meanQ ((sentence_word_counts text).map (fun k => (Nat.cast k : ℚ))))
                / (Nat.cast (c.dialogue_count + 1) : ℚ) } := by
  unfold analyze_dialogue_line_state
  exact update_characters_some_avg _ sp text c h hne

theorem analyze_characters_some_empty (st : DCState) (sp : String) (text : Str)
    (ctx : String) (c : Character) (h : dlookup st.characters sp = some c)
    (he : (sentence_word_counts text).isEmpty = true) :
    (analyze_dialogue_line_state st sp text ctx).characters
      = dinsert st.characters sp { c with dialogue_count := c.dialogue_count + 1 } := by
  unfold analyze_dialogue_line_state
  exact update_characters_some_empty _ sp text c h he

theorem line_avg_len_of_ne (text : Str)
    (hne : (sentence_word_counts text).isEmpty = false) :
    line_avg_len text
      = meanQ ((sentence_word_counts text).map (fun n => (Nat.cast n : ℚ))) := by
  simp only [line_avg_len, hne, Bool.false_eq_true, if_false]

theorem analyze_calls_avg (name : String) :
    ∀ (calls : List (String × Str)) (st : DCState) (c : Character),
      dlookup st.characters name = some c →
      (∀ pr ∈ calls, pr.1 = name → (sentence_word_counts pr.2).isEmpty = false) →
      ∃ c2, dlookup (analyze_calls calls st).characters name = some c2 ∧
        c2.dialogue_count
          = c.dialogue_count + (calls.filter (fun pr => pr.1 == name)).length ∧
        (Nat.cast c2.dialogue_count : ℚ) * c2.avg_sentence_length
          = (Nat.cast c.dialogue_count : ℚ) * c.avg_sentence_length
            + ((calls.filter (fun pr => pr.1 == name)).map
                (fun pr => line_avg_len pr.2)).sum := by
  intro calls
  induction calls with
  | nil =>
    intro st c hc hall
    exact ⟨c, hc, by simp, by simp⟩
  | cons pr rest ih =>
    intro st c hc hall
    obtain ⟨sp, txt⟩ := pr
    have hstep : analyze_calls ((sp, txt) :: rest) st
        = analyze_calls rest (analyze_dialogue_line_state st sp txt "") := rfl
    rw [hstep]
    by_cases hsp : sp = name
    · subst hsp
      have hnem : (sentence_word_counts txt).isEmpty = false :=
        hall (sp, txt) (List.mem_cons_self _ _) rfl
      have e1 := analyze_characters_some_avg st sp txt "" c hc hnem
      have hc1 : dlookup (analyze_dialogue_line_state st sp txt "").characters sp
          = some { c with
              dialogue_count := c.dialogue_count + 1
              avg_sentence_length :=
                (c.avg_sentence_length * ((Nat.cast (c.dialogue_count + 1) : ℚ) - 1)
                  + meanQ ((sentence_word_counts txt).map (fun k => (Nat.cast k : ℚ))))
                  / (Nat.cast (c.dialogue_count + 1) : ℚ) } := by
        rw [e1]
        exact dlookup_dinsert_self sp _ st.characters
      have hall' : ∀ q ∈ rest, q.1 = sp → (sentence_word_counts q.2).isEmpty = false :=
        fun q hq => hall q (List.mem_cons_of_mem _ hq)
      obtain ⟨c2, hc2, hcnt, hsum⟩ :=
        ih (analyze_dialogue_line_state st sp txt "") _ hc1 hall'
      have hcondp : ((fun pr : String × Str => pr.1 == sp) (sp, txt)) = true := by
        simp
      have hfil : ((sp, txt) :: rest).filter (fun pr => pr.1 == sp)
          = (sp, txt) :: rest.filter (fun pr => pr.1 == sp) := by
        rw [List.filter_cons, if_pos hcondp]
      have hcnt2 : c2.dialogue_count
          = (c.dialogue_count + 1)
            + (rest.filter (fun pr => pr.1 == sp)).length := hcnt
      have hsum2 : (Nat.cast c2.dialogue_count : ℚ) * c2.avg_sentence_length
          = (Nat.cast (c.dialogue_count + 1) : ℚ)
              * ((c.avg_sentence_length * ((Nat.cast (c.dialogue_count + 1) : ℚ) - 1)
                + meanQ ((sentence_word_counts txt).map (fun k => (Nat.cast k : ℚ))))
                / (Nat.cast (c.dialogue_count + 1) : ℚ))
            + ((rest.filter (fun pr => pr.1 == sp)).map
                (fun pr => line_avg_len pr.2)).sum := hsum
      refine ⟨c2, hc2, ?_, ?_⟩
      · rw [hcnt2, hfil, List.length_cons]
        omega
      · have hnz : (Nat.cast (c.dialogue_count + 1) : ℚ) ≠ 0 :=
          Nat.cast_ne_zero.mpr (Nat.succ_ne_zero _)
        rw [hfil]
        simp only [List.map_cons, List.sum_cons]
        rw [line_avg_len_of_ne txt hnem, hsum2, mul_div_cancel₀ _ hnz]
        push_cast
        ring
    · have hcondn : ¬(((fun pr : String × Str => pr.1 == name) (sp, txt)) = true) := by
        simp [hsp]
      have hfil : ((sp, txt) :: rest).filter (fun pr => pr.1 == name)
          = rest.filter (fun pr => pr.1 == name) := by
        rw [List.filter_cons, if_neg hcondn]
      have hc1 : dlookup (analyze_dialogue_line_state st sp txt "").characters name
          = some c := by
        cases hl : dlookup st.characters sp with
        | none =>
          rw [analyze_state_characters_none st sp txt "" hl]
          exact hc
        | some c0 =>
          obtain ⟨c2', hchars, _⟩ := analyze_state_characters_some st sp txt "" c0 hl
          rw [hchars, dlookup_dinsert_ne sp name c2' (fun h => hsp h.symm) st.characters]
          exact hc
      obtain ⟨c2, hc2, hcnt, hsum⟩ :=
        ih (analyze_dialogue_line_state st sp txt "") c hc1
          (fun q hq => hall q (List.mem_cons_of_mem _ hq))
      refine ⟨c2, hc2, ?_, ?_⟩
      · rw [hcnt, hfil]
      · rw [hsum, hfil]

/-- C2, amended: with one character registered (under `name`) before any lines,
after a sequence of `analyze_dialogue_line` calls of which `n ≥ 1` are
attributed to that character and every one of those `n` lines has at least one
sentence, the character's `avg_sentence_length` is exactly the arithmetic mean
of the per-line average sentence lengths `L1..Ln` of its own lines, independent
of interleaved calls for other speakers; `dialogue_count` is exactly `n`.  (The
claim's clause giving a no-sentence line the value `L = 0` is refuted by
`C2_counterexample`: such a line increments the count but leaves the average
untouched.) -/
theorem C2_running_average (calls : List (String × Str)) (name : String)
    (hall : ∀ pr ∈ calls, pr.1 = name → (sentence_word_counts pr.2).isEmpty = false)
    (hn : (calls.filter (fun pr => pr.1 == name)).length ≠ 0) :
    ∃ c, dlookup (analyze_calls calls (add_character initState name none)).characters
        name = some c ∧
      c.dialogue_count = (calls.filter (fun pr => pr.1 == name)).length ∧
      c.avg_sentence_length
        = meanQ ((calls.filter (fun pr => pr.1 == name)).map
            (fun pr => line_avg_len pr.2)) := by
  have hc0 : dlookup (add_character initState name none).characters name
      = some { name := name, voice_patterns := default_voice_patterns,
               emotional_range := [], speech_quirks := [] } :=
    dlookup_dinsert_self name _ []
  obtain ⟨c2, hc2, hcnt, hsum⟩ := analyze_calls_avg name calls _ _ hc0 hall
  have hlen : c2.dialogue_count = (calls.filter (fun pr => pr.1 == name)).length := by
    simpa using hcnt
  have hsum' : (Nat.cast c2.dialogue_count : ℚ) * c2.avg_sentence_length
      = ((calls.filter (fun pr => pr.1 == name)).map (fun pr => line_avg_len pr.2)).sum := by
    simpa using hsum
  refine ⟨c2, hc2, hlen, ?_⟩
  have hcz : (Nat.cast c2.dialogue_count : ℚ) ≠ 0 := by
    rw [hlen]
    exact_mod_cast hn
  simp only [meanQ, List.length_map]
  rw [← hlen, ← hsum', mul_comm, mul_div_assoc, div_self hcz, mul_one]

/-- C2, witness: registering `"A"` and analyzing `"Hi there."` for `"A"`,
`"x"` for the unregistered `"B"`, and `"One two three four."` for `"A"` — both
`"A"` lines have sentences, so the amended invariant applies: count `2`, average
the mean of the two per-line averages. -/
theorem C2_running_average_witness :
    ∃ c, dlookup (analyze_calls [("A", ("Hi there.".data : Str)),
        ("B", ("x".data : Str)), ("A", ("One two three four.".data : Str))]
        (add_character initState "A" none)).characters "A" = some c ∧
      c.dialogue_count = ([("A", ("Hi there.".data : Str)), ("B", ("x".data : Str)),
        ("A", ("One two three four.".data : Str))].filter
          (fun pr => pr.1 == "A")).length ∧
      c.avg_sentence_length
        = meanQ (([("A", ("Hi there.".data : Str)), ("B", ("x".data : Str)),
            ("A", ("One two three four.".data : Str))].filter
              (fun pr => pr.1 == "A")).map (fun pr => line_avg_len pr.2)) := by
  refine C2_running_average _ "A" ?_ (by decide)
  intro pr hpr hname
  rw [List.mem_cons] at hpr
  rcases hpr with h | hpr
  · rw [h]
    simp only [sentence_word_counts, sentence_split, pyWords, chunks_eval]
    decide
  · rw [List.mem_cons] at hpr
    rcases hpr with h | hpr
    · rw [h] at hname
      exact absurd hname (by decide)
    · rw [List.mem_singleton] at hpr
      rw [hpr]
      simp only [sentence_word_counts, sentence_split, pyWords, chunks_eval]
      decide

/-- C2, counterexample to the claim's `L = 0` convention for no-sentence lines:
after `"Hi there."` (per-line average `2`) and `""` (no sentences, claimed
`L = 0`) for the registered `"A"`, the stored average is `2` — the empty line
incremented the count but skipped the average update — while the claimed mean
of `(2, 0)` is `1`. -/
theorem C2_counterexample :
    ((dlookup (analyze_calls [("A", ("Hi there.".data : Str)), ("A", ([] : Str))]
          (add_character initState "A" none)).characters "A").map
        (fun c => (c.dialogue_count, c.avg_sentence_length)) = some (2, 2) ∧
      line_avg_len ("Hi there.".data) = 2 ∧
      line_avg_len ([] : Str) = 0 ∧
      meanQ [(2 : ℚ), 0] = 1) ∧
    ¬((2 : ℚ) = 1) := by
  have h1 : sentence_word_counts ("Hi there.".data) = [2] := by
    simp only [sentence_word_counts, sentence_split, pyWords, chunks_eval]
    decide
  have h2 : sentence_word_counts ([] : Str) = [] := by
    simp only [sentence_word_counts, sentence_split, pyWords, chunks_eval]
    decide
  have hc0 : dlookup (add_character initState "A" none).characters "A"
      = some { name := "A", voice_patterns := default_voice_patterns,
               emotional_range := [], speech_quirks := [] } :=
    dlookup_dinsert_self "A" _ []
  have e1 := analyze_characters_some_avg (add_character initState "A" none) "A"
    ("Hi there.".data) "" _ hc0 (by rw [h1]; rfl)
  have hc1 : dlookup (analyze_dialogue_line_state (add_character initState "A" none)
        "A" ("Hi there.".data) "").characters "A"
      = some { name := "A", voice_patterns := default_voice_patterns,
               emotional_range := [], speech_quirks := [],
               dialogue_count := 0 + 1,
               avg_sentence_length :=
                 ((0 : ℚ) * ((Nat.cast (0 + 1) : ℚ) - 1)
                   + meanQ ((sentence_word_counts ("Hi there.".data)).map
                       (fun k => (Nat.cast k : ℚ))))
                   / (Nat.cast (0 + 1) : ℚ) } := by
    rw [e1]
    exact dlookup_dinsert_self "A" _ _
  have e2 := analyze_characters_some_empty (analyze_dialogue_line_state
      (add_character initState "A" none) "A" ("Hi there.".data) "") "A"
    ([] : Str) "" _ hc1 (by rw [h2]; rfl)
  refine ⟨⟨?_, ?_, ?_, ?_⟩, by norm_num⟩
  · show (dlookup (analyze_dialogue_line_state (analyze_dialogue_line_state
        (add_character initState "A" none) "A" ("Hi there.".data) "")
        "A" ([] : Str) "").characters "A").map
        (fun c => (c.dialogue_count, c.avg_sentence_length)) = some (2, 2)
    rw [e2, dlookup_dinsert_self "A" _ _, Option.map_some']
    simp only [Option.some_inj, Prod.mk.injEq]
    refine ⟨by norm_num, ?_⟩
    show ((0 : ℚ) * ((Nat.cast (0 + 1) : ℚ) - 1)
        + meanQ ((sentence_word_counts ("Hi there.".data)).map
            (fun k => (Nat.cast k : ℚ))))
        / (Nat.cast (0 + 1) : ℚ) = 2
    rw [h1]
    norm_num [meanQ]
  · rw [line_avg_len_of_ne _ (by rw [h1]; rfl), h1]
    norm_num [meanQ]
  · simp [line_avg_len, h2]
  · norm_num [meanQ]

/-- C3, amended: in every session state reached by a call sequence in which no
character is (re-)added after a line has already been analyzed under its name,
every registered character's `dialogue_count` equals the number of
`DialogueLine` records in the history whose speaker is that character.
(`suggest_improved_dialogue` and the query calls touch neither field.) -/
theorem C3_count_invariant (ops : List Op) (hwf : wfOps ops [] = true) :
    ∀ pr ∈ (run ops).characters,
      pr.2.dialogue_count = countSpeaker (run ops).dialogue_history pr.1 := by
  refine foldl_step_count_invariant ops initState [] ?_ ?_ hwf
  · intro pr hpr
    exact absurd hpr (by simp [initState])
  · intro n _
    rfl

/-- C3, witness: a concrete well-formed session — two characters added first,
three lines analyzed (one for an unregistered speaker), a scene set and queries
issued — in which every registered character's count matches its history
records. -/
theorem C3_count_invariant_witness :
    ((run [Op.addChar "A" none, Op.addChar "B" none,
        Op.analyze "A" ("Hi".data) "", Op.analyze "C" ("Yo".data) "",
        Op.analyze "A" ("Go".data) "", Op.querySummary "A",
        Op.suggest "B" ("Hm".data)]).characters.all
      (fun pr => pr.2.dialogue_count
        == countSpeaker (run [Op.addChar "A" none, Op.addChar "B" none,
            Op.analyze "A" ("Hi".data) "", Op.analyze "C" ("Yo".data) "",
            Op.analyze "A" ("Go".data) "", Op.querySummary "A",
            Op.suggest "B" ("Hm".data)]).dialogue_history pr.1)) = true := by
  rw [List.all_eq_true]
  intro pr hpr
  rw [beq_iff_eq]
  exact C3_count_invariant _ (by rfl) pr hpr

/-- C3, counterexample to the claim as stated: analyzing a line for `"X"` before
`add_character("X")` is a sequence of the listed calls after which the
registered character `"X"` has `dialogue_count = 0` while the history holds one
`DialogueLine` with speaker `"X"`. -/
theorem C3_counterexample :
    ((dlookup (run [Op.analyze "X" ("Hi".data) "", Op.addChar "X" none]).characters
        "X").map (fun c => c.dialogue_count) = some 0) ∧
    countSpeaker (run [Op.analyze "X" ("Hi".data) "",
      Op.addChar "X" none]).dialogue_history "X" = 1 ∧
    (0 : ℕ) ≠ 1 :=
  ⟨rfl, rfl, by decide⟩

/-! ### Idempotence of the formality transform (C8) -/

theorem go_nil (p0 : Char) (ps r : Str) (wb : Bool) : go p0 ps r wb [] = [] := by
  rw [go]

theorem go_cons_pos (p0 : Char) (ps r : Str) (wb : Bool) (c : Char) (cs : Str)
    (h : (wb && (lc c == lc p0) && mAt ps cs) = true) :
    go p0 ps r wb (c :: cs)
      = r ++ go p0 ps r (!wordc (lastc p0 ps)) (cs.drop ps.length) := by
  rw [go, if_pos h]

theorem go_cons_neg (p0 : Char) (ps r : Str) (wb : Bool) (c : Char) (cs : Str)
    (h : ¬((wb && (lc c == lc p0) && mAt ps cs) = true)) :
    go p0 ps r wb (c :: cs) = c :: go p0 ps r (!wordc c) cs := by
  rw [go, if_neg h]

theorem lc_wordc {a b : Char} (h : (lc a == lc b) = true) : wordc a = wordc b :=
  wordc_of_toLower_eq (beq_iff_eq.mp h)

theorem safePos_spec : ∀ (q t : Str), safePos q t = true → ∀ x, mAt q (t ++ x) = false := by
  intro q
  induction q with
  | nil =>
    intro t hs x
    rw [safePos, Bool.or_eq_true, Bool.not_eq_true', Bool.and_eq_true,
      decide_eq_true_eq, Bool.not_eq_true'] at hs
    rcases hs with h | ⟨h1, h2⟩
    · exact absurd h (by simp [ciStem])
    · cases t with
      | nil => simp at h1
      | cons c t2 =>
        rw [List.length_nil, List.drop_zero] at h2
        rw [List.cons_append, mAt]
        rw [wordBreak] at h2 ⊢
        exact h2
  | cons q1 q2 ih =>
    intro t hs x
    cases t with
    | nil => simp [safePos, ciStem] at hs
    | cons c t2 =>
      by_cases hc : (lc c == lc q1) = true
      · have hc2 : (lc q1 == lc c) = true := by
          rw [beq_iff_eq] at hc ⊢
          exact hc.symm
        have hs2 : safePos q2 t2 = true := by
          rw [safePos, Bool.or_eq_true, Bool.not_eq_true', Bool.and_eq_true,
            decide_eq_true_eq, Bool.not_eq_true'] at hs ⊢
          rcases hs with h | ⟨h1, h2⟩
          · left
            rw [ciStem, hc2, Bool.true_and] at h
            exact h
          · right
            refine ⟨by simpa using h1, ?_⟩
            rwa [List.length_cons, List.drop_succ_cons] at h2
        rw [List.cons_append, mAt, ih t2 hs2 x]
        simp
      · rw [List.cons_append, mAt]
        cases hcc : (lc c == lc q1) with
        | false => simp
        | true => exact absurd hcc hc

theorem hasOccA_append (q0 : Char) (qs : Str) :
    ∀ (r : Str) (wb : Bool), bSafe (q0 :: qs) wb r = true →
      ∀ x, hasOccA q0 qs wb (r ++ x) = hasOccA q0 qs (wbAfter wb r) x := by
  intro r
  induction r with
  | nil =>
    intro wb _ x
    rw [wbAfter, List.nil_append]
  | cons c cs ih =>
    intro wb hb x
    rw [bSafe, Bool.and_eq_true] at hb
    obtain ⟨hhead, htail⟩ := hb
    rw [List.cons_append, hasOccA, wbAfter, ih (!wordc c) htail x]
    cases hwb : wb with
    | false => simp
    | true =>
      rw [hwb] at hhead
      have hsp : safePos (q0 :: qs) (c :: cs) = true := by
        simpa using hhead
      have hm := safePos_spec (q0 :: qs) (c :: cs) hsp x
      rw [List.cons_append, mAt] at hm
      rcases Bool.and_eq_false_iff.mp hm with h | h
      · simp [h]
      · simp [h]

theorem hasOccA_mono (q0 : Char) (qs : Str) (s : Str) (wb : Bool)
    (h : hasOccA q0 qs false s = true) : hasOccA q0 qs wb s = true := by
  cases s with
  | nil => rw [hasOccA] at h; exact absurd h (by simp)
  | cons c cs =>
    rw [hasOccA, Bool.or_eq_true] at h ⊢
    rcases h with h | h
    · simp at h
    · exact Or.inr h

theorem hasOccA_drop (q0 : Char) (qs : Str) :
    ∀ (s : Str) (wb : Bool), hasOccA q0 qs wb s = false →
      ∀ n, hasOccA q0 qs false (s.drop n) = false := by
  intro s
  induction s with
  | nil =>
    intro wb _ n
    rw [List.drop_nil, hasOccA]
  | cons c cs ih =>
    intro wb h n
    rw [hasOccA, Bool.or_eq_false_iff] at h
    cases n with
    | zero =>
      rw [List.drop_zero, hasOccA, Bool.or_eq_false_iff]
      exact ⟨by simp, h.2⟩
    | succ n =>
      rw [List.drop_succ_cons]
      exact ih (!wordc c) h.2 n

theorem wordBreak_go (p0 : Char) (ps r : Str) (hp0 : wordc p0 = true)
    (hr0 : startsWordc r = true) (wb : Bool) (s : Str) :
    wordBreak (go p0 ps r wb s) = wordBreak s := by
  cases s with
  | nil => rw [go_nil]
  | cons c cs =>
    by_cases hg : (wb && (lc c == lc p0) && mAt ps cs) = true
    · rw [go_cons_pos _ _ _ _ _ _ hg]
      cases r with
      | nil => rw [startsWordc] at hr0; exact absurd hr0 (by simp)
      | cons d rs =>
        rw [List.cons_append]
        have hc : (lc c == lc p0) = true := by
          have hg2 := hg
          simp only [Bool.and_eq_true] at hg2
          exact hg2.1.2
        have hwc : wordc c = wordc p0 := lc_wordc hc
        have hd : wordc d = true := by simpa [startsWordc] using hr0
        simp only [wordBreak]
        rw [hd, hwc, hp0]
    · rw [go_cons_neg _ _ _ _ _ _ hg]
      simp only [wordBreak]

theorem mAt_go (p0 : Char) (ps r : Str) (hp0 : wordc p0 = true)
    (hr0 : startsWordc r = true) :
    ∀ (q2 : Str) (w : Bool), midSafe r w q2 = true →
      ∀ s, mAt q2 (go p0 ps r (!w) s) = true → mAt q2 s = true := by
  intro q2
  induction q2 with
  | nil =>
    intro w _ s h
    rw [mAt] at h ⊢
    rwa [wordBreak_go p0 ps r hp0 hr0] at h
  | cons q1 q2 ih =>
    intro w hms s h
    rw [midSafe, Bool.and_eq_true] at hms
    obtain ⟨hh, hms2⟩ := hms
    cases s with
    | nil =>
      rw [go_nil, mAt] at h
      exact absurd h (by simp)
    | cons c cs =>
      by_cases hg : ((!w) && (lc c == lc p0) && mAt ps cs) = true
      · have hw : w = false := by
          have hg2 := hg
          simp only [Bool.and_eq_true] at hg2
          simpa using hg2.1.1
        have hsp : safePos (q1 :: q2) r = true := by
          rw [hw] at hh
          simpa using hh
        rw [go_cons_pos _ _ _ _ _ _ hg, safePos_spec _ _ hsp _] at h
        exact absurd h (by simp)
      · rw [go_cons_neg _ _ _ _ _ _ hg] at h
        rw [mAt, Bool.and_eq_true] at h
        obtain ⟨hc, hrest⟩ := h
        have hwc : wordc c = wordc q1 := lc_wordc hc
        have hrest2 : mAt q2 (go p0 ps r (!(wordc q1)) cs) = true := by
          rw [← hwc]
          exact hrest
        rw [mAt, Bool.and_eq_true]
        exact ⟨hc, ih (wordc q1) hms2 cs hrest2⟩

theorem go_clear (p0 : Char) (ps r : Str) (hp0 : wordc p0 = true)
    (hr0 : startsWordc r = true) (hlast : wordc (lastc p0 ps) = true)
    (hb1 : bSafe (p0 :: ps) true r = true) (hb2 : bSafe (p0 :: ps) false r = true)
    (hw1 : wbAfter true r = false) (hw2 : wbAfter false r = false)
    (hms : midSafe r (wordc p0) ps = true) :
    ∀ (n : ℕ) (s : Str), s.length ≤ n → ∀ wb,
      hasOccA p0 ps wb (go p0 ps r wb s) = false := by
  intro n
  induction n with
  | zero =>
    intro s hs wb
    rw [List.length_eq_zero.mp (Nat.le_zero.mp hs), go_nil, hasOccA]
  | succ n ih =>
    intro s hs wb
    cases s with
    | nil => rw [go_nil, hasOccA]
    | cons c cs =>
      rw [List.length_cons] at hs
      by_cases hg : (wb && (lc c == lc p0) && mAt ps cs) = true
      · rw [go_cons_pos _ _ _ _ _ _ hg, hlast]
        simp only [Bool.not_true]
        have hbw : bSafe (p0 :: ps) wb r = true := by
          cases wb
          · exact hb2
          · exact hb1
        rw [hasOccA_append p0 ps r wb hbw]
        have hwaf : wbAfter wb r = false := by
          cases wb
          · exact hw2
          · exact hw1
        rw [hwaf]
        exact ih (cs.drop ps.length) (by rw [List.length_drop]; omega) false
      · rw [go_cons_neg _ _ _ _ _ _ hg, hasOccA, Bool.or_eq_false_iff]
        constructor
        · cases hA : (wb && (lc c == lc p0) && mAt ps (go p0 ps r (!wordc c) cs)) with
          | false => rfl
          | true =>
            exfalso
            have hA2 := hA
            simp only [Bool.and_eq_true] at hA2
            obtain ⟨h1, hmt⟩ := hA2
            have hwc : wordc c = wordc p0 := lc_wordc h1.2
            have hmt2 : mAt ps (go p0 ps r (!(wordc p0)) cs) = true := by
              rw [← hwc]
              exact hmt
            have hin : mAt ps cs = true := mAt_go p0 ps r hp0 hr0 ps (wordc p0) hms cs hmt2
            refine hg ?_
            simp only [Bool.and_eq_true]
            exact ⟨h1, hin⟩
        · exact ih cs (by omega) (!wordc c)

theorem go_preserve (p0 : Char) (ps r : Str) (q0 : Char) (qs : Str)
    (hp0 : wordc p0 = true) (hr0 : startsWordc r = true)
    (hlast : wordc (lastc p0 ps) = true)
    (hb1 : bSafe (q0 :: qs) true r = true) (hb2 : bSafe (q0 :: qs) false r = true)
    (hw1 : wbAfter true r = false) (hw2 : wbAfter false r = false)
    (hms : midSafe r (wordc q0) qs = true) :
    ∀ (n : ℕ) (s : Str), s.length ≤ n → ∀ wb,
      hasOccA q0 qs wb s = false →
      hasOccA q0 qs wb (go p0 ps r wb s) = false := by
  intro n
  induction n with
  | zero =>
    intro s hs wb _
    rw [List.length_eq_zero.mp (Nat.le_zero.mp hs), go_nil, hasOccA]
  | succ n ih =>
    intro s hs wb hq
    cases s with
    | nil => rw [go_nil, hasOccA]
    | cons c cs =>
      rw [List.length_cons] at hs
      rw [hasOccA, Bool.or_eq_false_iff] at hq
      obtain ⟨hqh, hqt⟩ := hq
      by_cases hg : (wb && (lc c == lc p0) && mAt ps cs) = true
      · rw [go_cons_pos _ _ _ _ _ _ hg, hlast]
        simp only [Bool.not_true]
        have hbw : bSafe (q0 :: qs) wb r = true := by
          cases wb
          · exact hb2
          · exact hb1
        rw [hasOccA_append q0 qs r wb hbw]
        have hwaf : wbAfter wb r = false := by
          cases wb
          · exact hw2
          · exact hw1
        rw [hwaf]
        refine ih (cs.drop ps.length) (by rw [List.length_drop]; omega) false ?_
        exact hasOccA_drop q0 qs cs (!wordc c) hqt ps.length
      · rw [go_cons_neg _ _ _ _ _ _ hg, hasOccA, Bool.or_eq_false_iff]
        constructor
        · cases hA : (wb && (lc c == lc q0) && mAt qs (go p0 ps r (!wordc c) cs)) with
          | false => rfl
          | true =>
            exfalso
            have hA2 := hA
            simp only [Bool.and_eq_true] at hA2
            obtain ⟨h1, hmt⟩ := hA2
            have hwc : wordc c = wordc q0 := lc_wordc h1.2
            have hmt2 : mAt qs (go p0 ps r (!(wordc q0)) cs) = true := by
              rw [← hwc]
              exact hmt
            have hin : mAt qs cs = true := mAt_go p0 ps r hp0 hr0 qs (wordc q0) hms cs hmt2
            have hcontra : (wb && (lc c == lc q0) && mAt qs cs) = true := by
              simp only [Bool.and_eq_true]
              exact ⟨h1, hin⟩
            rw [hqh] at hcontra
            exact Bool.false_ne_true hcontra
        · exact ih cs (by omega) (!wordc c) hqt

theorem go_id (p0 : Char) (ps r : Str) :
    ∀ (n : ℕ) (s : Str), s.length ≤ n → ∀ wb,
      hasOccA p0 ps wb s = false → go p0 ps r wb s = s := by
  intro n
  induction n with
  | zero =>
    intro s hs wb _
    rw [List.length_eq_zero.mp (Nat.le_zero.mp hs), go_nil]
  | succ n ih =>
    intro s hs wb h
    cases s with
    | nil => rw [go_nil]
    | cons c cs =>
      rw [List.length_cons] at hs
      rw [hasOccA, Bool.or_eq_false_iff] at h
      rw [go_cons_neg _ _ _ _ _ _ (by rw [h.1]; simp)]
      rw [ih cs (by omega) (!wordc c) h.2]

theorem subW_clear (p r : Str) (h : clearSafe p r = true) (s : Str) :
    hasOcc p (subW p r s) = false := by
  cases p with
  | nil => rw [clearSafe] at h; exact absurd h (by simp)
  | cons p0 ps =>
    rw [clearSafe] at h
    repeat rw [Bool.and_eq_true] at h
    obtain ⟨⟨⟨⟨⟨⟨⟨h1, h2⟩, h3⟩, h4⟩, h5⟩, h6⟩, h7⟩, h8⟩ := h
    show hasOccA p0 ps true (go p0 ps r true s) = false
    exact go_clear p0 ps r h1 h2 h3 h4 h5 (by simpa using h6) (by simpa using h7) h8
      s.length s (le_refl _) true

theorem subW_preserve (p r q : Str) (hpass : clearSafe p r = true)
    (hq : presSafe q r = true) (s : Str) (h : hasOcc q s = false) :
    hasOcc q (subW p r s) = false := by
  cases q with
  | nil => rfl
  | cons q0 qs =>
    cases p with
    | nil => exact h
    | cons p0 ps =>
      rw [clearSafe] at hpass
      repeat rw [Bool.and_eq_true] at hpass
      obtain ⟨⟨⟨⟨⟨⟨⟨h1, h2⟩, h3⟩, _⟩, _⟩, _⟩, _⟩, _⟩ := hpass
      rw [presSafe] at hq
      repeat rw [Bool.and_eq_true] at hq
      obtain ⟨⟨⟨⟨g1, g2⟩, g3⟩, g4⟩, g5⟩ := hq
      show hasOccA q0 qs true (go p0 ps r true s) = false
      exact go_preserve p0 ps r q0 qs h1 h2 h3 g1 g2 (by simpa using g3)
        (by simpa using g4) g5 s.length s (le_refl _) true h

theorem subW_id (p r s : Str) (h : hasOcc p s = false) : subW p r s = s := by
  cases p with
  | nil => rfl
  | cons p0 ps => exact go_id p0 ps r s.length s (le_refl _) true h

/-- C8: with the random prefix insertion disabled (the claim pins the
`random.random() < 0.2` threshold to `0`, so the prefix branch never fires —
and a formality parameter held at or above `0.99` merely selects that
`_make_more_formal` runs in `_adapt_to_character_voice`), the formality
transform is idempotent: applying the eight whole-word case-insensitive
`re.sub` passes a second time changes nothing, because after one application no
informal table word survives as a whole word and no replacement can create
one. -/
theorem C8_formality_idempotent (s : Str) :
    make_more_formal (make_more_formal s) = make_more_formal s := by
  have hstep : ∀ t, make_more_formal t
      = subW ("sure".data) ("certainly".data)
          (subW ("okay".data) ("very well".data)
            (subW ("yeah".data) ("yes".data)
              (subW ("aren't".data) ("are not".data)
                (subW ("isn't".data) ("is not".data)
                  (subW ("don't".data) ("do not".data)
                    (subW ("won't".data) ("will not".data)
                      (subW ("can't".data) ("cannot".data) t))))))) :=
    fun t => rfl
  have h1 : hasOcc ("can't".data) (make_more_formal s) = false := by
    rw [hstep]
    refine subW_preserve _ _ _ (by decide) (by decide) _ ?_
    refine subW_preserve _ _ _ (by decide) (by decide) _ ?_
    refine subW_preserve _ _ _ (by decide) (by decide) _ ?_
    refine subW_preserve _ _ _ (by decide) (by decide) _ ?_
    refine subW_preserve _ _ _ (by decide) (by decide) _ ?_
    refine subW_preserve _ _ _ (by decide) (by decide) _ ?_
    refine subW_preserve _ _ _ (by decide) (by decide) _ ?_
    exact subW_clear _ _ (by decide) _
  have h2 : hasOcc ("won't".data) (make_more_formal s) = false := by
    rw [hstep]
    refine subW_preserve _ _ _ (by decide) (by decide) _ ?_
    refine subW_preserve _ _ _ (by decide) (by decide) _ ?_
    refine subW_preserve _ _ _ (by decide) (by decide) _ ?_
    refine subW_preserve _ _ _ (by decide) (by decide) _ ?_
    refine subW_preserve _ _ _ (by decide) (by decide) _ ?_
    refine subW_preserve _ _ _ (by decide) (by decide) _ ?_
    exact subW_clear _ _ (by decide) _
  have h3 : hasOcc ("don't".data) (make_more_formal s) = false := by
    rw [hstep]
    refine subW_preserve _ _ _ (by decide) (by decide) _ ?_
    refine subW_preserve _ _ _ (by decide) (by decide) _ ?_
    refine subW_preserve _ _ _ (by decide) (by decide) _ ?_
    refine subW_preserve _ _ _ (by decide) (by decide) _ ?_
    refine subW_preserve _ _ _ (by decide) (by decide) _ ?_
    exact subW_clear _ _ (by decide) _
  have h4 : hasOcc ("isn't".data) (make_more_formal s) = false := by
    rw [hstep]
    refine subW_preserve _ _ _ (by decide) (by decide) _ ?_
    refine subW_preserve _ _ _ (by decide) (by decide) _ ?_
    refine subW_preserve _ _ _ (by decide) (by decide) _ ?_
    refine subW_preserve _ _ _ (by decide) (by decide) _ ?_
    exact subW_clear _ _ (by decide) _
  have h5 : hasOcc ("aren't".data) (make_more_formal s) = false := by
    rw [hstep]
    refine subW_preserve _ _ _ (by decide) (by decide) _ ?_
    refine subW_preserve _ _ _ (by decide) (by decide) _ ?_
    refine subW_preserve _ _ _ (by decide) (by decide) _ ?_
    exact subW_clear _ _ (by decide) _
  have h6 : hasOcc ("yeah".data) (make_more_formal s) = false := by
    rw [hstep]
    refine subW_preserve _ _ _ (by decide) (by decide) _ ?_
    refine subW_preserve _ _ _ (by decide) (by decide) _ ?_
    exact subW_clear _ _ (by decide) _
  have h7 : hasOcc ("okay".data) (make_more_formal s) = false := by
    rw [hstep]
    refine subW_preserve _ _ _ (by decide) (by decide) _ ?_
    exact subW_clear _ _ (by decide) _
  have h8 : hasOcc ("sure".data) (make_more_formal s) = false := by
    rw [hstep]
    exact subW_clear _ _ (by decide) _
  conv_lhs => rw [hstep (make_more_formal s)]
  rw [subW_id _ _ _ h1, subW_id _ _ _ h2, subW_id _ _ _ h3, subW_id _ _ _ h4,
    subW_id _ _ _ h5, subW_id _ _ _ h6, subW_id _ _ _ h7, subW_id _ _ _ h8]

end DC
